import Mathlib

/-!
# MarkovianSentences: corpus construction and sentence generation

A shallow embedding of `src/Markov.cpp` and `src/utils.hpp`.

* `io::string` (a `std::wstring`) is a list of characters.
* `WordKey` (`std::array<io::string, SIZE>`) is the list of the `SIZE` copied words.
* The corpus `self` (`std::unordered_map<WordKey, WordList, key_hash, key_equal>`)
  is the list of its entries, searched with `key_equal`: this is what `find`
  and `operator[]` observe, whatever the buckets.
* `std::hash<io::string>` (implementation defined) and the `operator<<` of
  `pretty_print.hpp` (not among the sources) are the parameters `fn` and `pp`.
* The process-wide `std::mt19937` is a stream `rng : Nat → Nat` of raw draws;
  the draw number `t` used on a list of `n` words is `rng t % n`.
* Loops that may not end take a fuel argument and report `Err.timeout` when it
  runs out; `list.at` out of range reports `Err.out_of_range`.
* The `uint` accumulators `size` are kept modulo `2 ^ 32`. The counters `i`,
  `offset` and `tries` are natural numbers: `tries` stays below 7, and the
  other two count stored words, taken to be fewer than `2 ^ 31`.
-/

namespace Markov

/-! ## Types and constants -/

/-- The string type `io::string`. -/
abbrev Str := List Char

/-- The type `WordList = std::vector<io::string>`. -/
abbrev WordList := List Str

/-- The type `WordKey = std::array<io::string, SIZE>`. -/
abbrev WordKey := List Str

/-- The corpus map `self`, as the list of its entries. -/
abbrev Corpus := List (WordKey × WordList)

/-- Number of previous words remembered. -/
def SIZE : Nat := 2

/-- Minimum characters necessary for a sentence. -/
def MIN_THRESHOLD : Nat := 10

/-- Maximum number of attempts to place a word or sentence. -/
def TRY_LIMIT : Nat := 5

/-- Default character budget. -/
def MAX_CHAR_LIMIT : Nat := 145

/-- The constant `L" [B] "`. -/
def BEGIN_STRING : Str := [' ', '[', 'B', ']', ' ']

/-- The constant `L" [E] "`. -/
def END_STRING : Str := [' ', '[', 'E', ']', ' ']

/-- The constant `L".!?"`. -/
def SENTENCE_PUNCT : Str := ['.', '!', '?']

/-- The constant `L" "`. -/
def SPACE : Str := [' ']

/-- Range of the C++ type `uint` (32 bits). -/
def UINT_RANGE : Nat := 2 ^ 32

/-! ## utils.hpp -/

/-- The functor `util::key_hash`: the string hash `fn` of the rendering `pp` of the key. -/
def key_hash (fn : Str → Nat) (pp : WordKey → Str) (k : WordKey) : Nat :=
  fn (pp k)

/-- The functor `util::key_equal`: two keys are equal when their hashes are. -/
def key_equal (fn : Str → Nat) (pp : WordKey → Str) (v0 v1 : WordKey) : Bool :=
  key_hash fn pp v0 == key_hash fn pp v1

/-- The function `util::createFromContainer`: copies `SIZE` words starting at `offset`. -/
def createFromContainer (deque : List Str) (offset : Nat) : WordKey :=
  (deque.drop offset).take SIZE

/-- The function `util::print`: every word followed by the separator, then the last
character removed when the output is not empty. -/
def print (words : List Str) (sep : Str) : Str :=
  let output := (words.map (fun w => w ++ sep)).flatten
  if output.length > 0 then output.take (output.length - 1) else output

/-! ## The corpus map -/

/-- The lookup `self.find (k)`: the list of the entry whose key is `key_equal` to `k`. -/
def find (fn : Str → Nat) (pp : WordKey → Str) : Corpus → WordKey → Option WordList
  | [], _ => none
  | (k', l) :: rest, k => if key_equal fn pp k' k then some l else find fn pp rest k

/-- The statement `self [k].push_back (w)`: the entry `key_equal` to `k` gets `w`
appended; when there is none, a new entry `k ↦ [w]` is created. -/
def push_back (fn : Str → Nat) (pp : WordKey → Str) : Corpus → WordKey → Str → Corpus
  | [], k, w => [(k, [w])]
  | (k', l) :: rest, k, w =>
    if key_equal fn pp k' k then (k', l ++ [w]) :: rest
    else (k', l) :: push_back fn pp rest k w

/-- The continuation list of a key: the list of its entry, empty when it has none. -/
def continuations (fn : Str → Nat) (pp : WordKey → Str) (self : Corpus) (k : WordKey) : WordList :=
  (find fn pp self k).getD []

/-! ## Training -/

/-- Whitespace as the stream extraction sees it: the six characters every
locale classifies as space (space, and tab to carriage return). -/
def isspace (c : Char) : Bool :=
  c.toNat == 32 || (9 ≤ c.toNat && c.toNat ≤ 13)

/-- Reading `io::isi { iss }` to its end: whitespace separated words, in order.
`cur` is the word being read, last character first. -/
def readWords : Str → Str → List Str
  | cur, [] => if cur.isEmpty then [] else [cur.reverse]
  | cur, c :: cs =>
    if isspace c then
      if cur.isEmpty then readWords [] cs else cur.reverse :: readWords [] cs
    else readWords (c :: cur) cs

/-- The words of a sentence, as `addSentence` reads them into `parsed`. -/
def parse (sentence : Str) : List Str :=
  readWords [] sentence

/-- The deque `parsed` of `addSentence` after the `SIZE` false start points are inserted. -/
def padded (sentence : Str) : List Str :=
  List.replicate SIZE BEGIN_STRING ++ parse sentence

/-- The method `MarkovCorpus::addSentence`. -/
def addSentence (fn : Str → Nat) (pp : WordKey → Str) (self : Corpus) (sentence : Str) : Corpus :=
  let parsed := padded sentence
  (List.range (parsed.length - SIZE)).foldl
    (fun c i => push_back fn pp c (createFromContainer parsed i) (parsed.getD (i + SIZE) []))
    self

/-- Offset of the first sentence terminator in a string, none when it has none. -/
def firstPunct : Str → Option Nat
  | [] => none
  | c :: cs => if c ∈ SENTENCE_PUNCT then some 0 else (firstPunct cs).map (· + 1)

/-- The call `str.find_first_of (SENTENCE_PUNCT, pos)`; `none` is `npos`. -/
def find_first_of (str : Str) (pos : Nat) : Option Nat :=
  (firstPunct (str.drop pos)).map (· + pos)

/-- The `for` loop of `addFromString`, entered with the values of `prev` and
`index`, at most `fuel` passes. The sentence `{begin + prev, begin + index + 1}`
is the `index + 1 - prev` characters from `prev` on. -/
def addFromStringLoop (fn : Str → Nat) (pp : WordKey → Str) (str : Str) :
    Nat → Corpus → Nat → Option Nat → Corpus
  | 0, self, _, _ => self
  | _ + 1, self, _, none => self
  | fuel + 1, self, prev, some index =>
    addFromStringLoop fn pp str fuel
      (if index - prev > MIN_THRESHOLD then
        addSentence fn pp self ((str.drop prev).take (index + 1 - prev))
      else self)
      (index + 1) (find_first_of str (index + 1))

/-- The method `MarkovCorpus::addFromString`. Every pass but the last moves
`prev` past one more character, so `str.length + 1` passes are enough
(`addFromString_eq_foldl`). -/
def addFromString (fn : Str → Nat) (pp : WordKey → Str) (self : Corpus) (str : Str) : Corpus :=
  addFromStringLoop fn pp str (str.length + 1) self 0 (find_first_of str 0)

/-- The constructor `MarkovCorpus (str)`. -/
def MarkovCorpus (fn : Str → Nat) (pp : WordKey → Str) (str : Str) : Corpus :=
  addFromString fn pp [] str

/-! ## Generation -/

/-- How a loop can fail to return a value. -/
inductive Err where
  | timeout
  | out_of_range
  deriving DecidableEq

/-- Local variables of `yieldSentence`, and `calls`, the number of draws made so far. -/
structure SentenceState where
  out : List Str
  offset : Nat
  size : Nat
  tries : Nat
  calls : Nat
  deriving DecidableEq

/-- Result of one pass through the body of the loop of `yieldSentence`. -/
inductive SentenceStep where
  | next (s : SentenceState)
  | stop (s : SentenceState)
  | fault
  deriving DecidableEq

/-- One pass through the body of `while (true)` in `yieldSentence`. An entry
with an empty list, which `addSentence` never builds, makes `list.at` fail. -/
def yieldSentenceStep (fn : Str → Nat) (pp : WordKey → Str) (self : Corpus) (rng : Nat → Nat)
    (max_chars : Nat) (s : SentenceState) : SentenceStep :=
  match find fn pp self (createFromContainer s.out s.offset) with
  | none => .stop s
  | some list =>
    match list.get? (rng s.calls % list.length) with
    | none => .fault
    | some word =>
      if word = END_STRING then .stop { s with calls := s.calls + 1 }
      else if word.length + s.size ≥ max_chars ∧ s.tries + 1 ≤ TRY_LIMIT then
        .next { s with tries := s.tries + 1, calls := s.calls + 1 }
      else
        .next { out := s.out ++ [word], offset := s.offset + 1,
                size := (s.size + (word.length + 1)) % UINT_RANGE,
                tries := 0, calls := s.calls + 1 }

/-- The loop of `yieldSentence`, at most `fuel` passes. -/
def yieldSentenceLoop (fn : Str → Nat) (pp : WordKey → Str) (self : Corpus) (rng : Nat → Nat)
    (max_chars : Nat) : Nat → SentenceState → Except Err SentenceState
  | 0, _ => .error .timeout
  | fuel + 1, s =>
    match yieldSentenceStep fn pp self rng max_chars s with
    | .stop s' => .ok s'
    | .fault => .error .out_of_range
    | .next s' => yieldSentenceLoop fn pp self rng max_chars fuel s'

/-- The state of `yieldSentence` before its loop, the draws starting at number `t`. -/
def sentenceStart (t : Nat) : SentenceState :=
  { out := List.replicate SIZE BEGIN_STRING, offset := 0, size := 0, tries := 0, calls := t }

/-- The method `MarkovCorpus::yieldSentence`: the sentence, and the number of
draws made once it returns. -/
def yieldSentence (fn : Str → Nat) (pp : WordKey → Str) (self : Corpus) (rng : Nat → Nat)
    (fuel t max_chars : Nat) : Except Err (Str × Nat) :=
  match yieldSentenceLoop fn pp self rng max_chars fuel (sentenceStart t) with
  | .ok s => .ok (print (s.out.drop SIZE) SPACE, s.calls)
  | .error e => .error e

/-- Local variables of `yieldOutput`, and the number of draws made so far. -/
structure OutputState where
  out : List Str
  size : Nat
  tries : Nat
  calls : Nat
  deriving DecidableEq

/-- The loop of `yieldOutput`, at most `fuel` passes, each call of
`yieldSentence` with `sfuel`. -/
def yieldOutputLoop (fn : Str → Nat) (pp : WordKey → Str) (self : Corpus) (rng : Nat → Nat)
    (sfuel max_chars : Nat) : Nat → OutputState → Except Err OutputState
  | 0, _ => .error .timeout
  | fuel + 1, s =>
    if s.size ≤ max_chars then
      match yieldSentence fn pp self rng sfuel s.calls max_chars with
      | .error e => .error e
      | .ok (sentence, calls) =>
        if sentence.length + s.size ≥ max_chars then
          if s.tries + 1 < TRY_LIMIT then
            yieldOutputLoop fn pp self rng sfuel max_chars fuel
              { s with tries := s.tries + 1, calls := calls }
          else .ok { s with tries := s.tries + 1, calls := calls }
        else
          yieldOutputLoop fn pp self rng sfuel max_chars fuel
            { out := s.out ++ [sentence],
              size := (s.size + (sentence.length + 1)) % UINT_RANGE,
              tries := 0, calls := calls }
    else .ok s

/-- The method `MarkovCorpus::yieldOutput`. -/
def yieldOutput (fn : Str → Nat) (pp : WordKey → Str) (self : Corpus) (rng : Nat → Nat)
    (sfuel fuel t max_chars : Nat) : Except Err Str :=
  match yieldOutputLoop fn pp self rng sfuel max_chars fuel
      { out := [], size := 0, tries := 0, calls := t } with
  | .ok s => .ok (print s.out SPACE)
  | .error e => .error e

/-! ## Quantities the properties are stated with -/

/-- The transitions `addSentence` records, in order: the key of each window and
the word that follows it. -/
def transitions (sentence : Str) : List (WordKey × Str) :=
  (List.range ((padded sentence).length - SIZE)).map
    (fun i => (createFromContainer (padded sentence) i, (padded sentence).getD (i + SIZE) []))

/-- Number of transitions stored in a corpus: the total length of its continuation lists. -/
def stored (self : Corpus) : Nat :=
  (self.map (fun e => e.2.length)).sum

/-- The terminator-delimited runs of a text, in order: each goes from just
after the previous terminator (or the start of the text) through its closing
terminator. `run` is the part of the current run already read. -/
def runsLoop : Str → Str → List Str
  | _, [] => []
  | run, c :: rest =>
    if c ∈ SENTENCE_PUNCT then (run ++ [c]) :: runsLoop [] rest
    else runsLoop (run ++ [c]) rest

/-- The terminator-delimited runs of a text. -/
def runs (str : Str) : List Str :=
  runsLoop [] str

/-- The sentences `addFromString` hands to `addSentence`, in order, read off
the text in one scan: `run` holds the characters since the last terminator,
and a terminator closes a sentence when more than `MIN_THRESHOLD` characters
precede it in the run. -/
def learnedLoop : Str → Str → List Str
  | _, [] => []
  | run, c :: rest =>
    if c ∈ SENTENCE_PUNCT then
      if run.length > MIN_THRESHOLD then (run ++ [c]) :: learnedLoop [] rest
      else learnedLoop [] rest
    else learnedLoop (run ++ [c]) rest

/-- The sentences `addFromString` hands to `addSentence`. -/
def learned (str : Str) : List Str :=
  learnedLoop [] str

/-- Accumulated size of a list of accepted items: each counts its length and one separator. -/
def accumulated (ws : List Str) : Nat :=
  (ws.map (fun w => w.length + 1)).sum

/-- A stored word is well formed when it is not empty and has no whitespace. -/
def wordOk (w : Str) : Prop :=
  w ≠ [] ∧ ∀ c ∈ w, isspace c = false

/-- Every stored word of the corpus is well formed, and no entry is empty. -/
def corpusOk (self : Corpus) : Prop :=
  ∀ e ∈ self, e.2 ≠ [] ∧ ∀ w ∈ e.2, wordOk w

/-- The corpora a program can build: the empty map of a new `MarkovCorpus`, and
what `addSentence` and `addFromString` make of a corpus already built. -/
inductive Reachable (fn : Str → Nat) (pp : WordKey → Str) : Corpus → Prop where
  | empty : Reachable fn pp []
  | addSentence (self : Corpus) (sentence : Str) :
      Reachable fn pp self → Reachable fn pp (Markov.addSentence fn pp self sentence)
  | addFromString (self : Corpus) (str : Str) :
      Reachable fn pp self → Reachable fn pp (Markov.addFromString fn pp self str)

/-- A call of `yieldSentence (max_chars)` whose draws start at number `t`
returns `r`: its loop ends within some number of passes. -/
def sentenceReturns (fn : Str → Nat) (pp : WordKey → Str) (self : Corpus) (rng : Nat → Nat)
    (max_chars t : Nat) (r : Str × Nat) : Prop :=
  ∃ sfuel, yieldSentence fn pp self rng sfuel t max_chars = .ok r

/-- The passes of the loop of `yieldOutput (max_chars)` after which the loop
goes on, the draws starting at number `t`. `OutputRun log s`: the loop has made
`log.length` passes, each with one call of `yieldSentence` that returned; `log`
holds, pass by pass, the sentence and whether it was appended (`true`) or
rejected (`false`), and `s` holds the local variables before the next pass. -/
inductive OutputRun (fn : Str → Nat) (pp : WordKey → Str) (self : Corpus) (rng : Nat → Nat)
    (max_chars t : Nat) : List (Str × Bool) → OutputState → Prop where
  | start : OutputRun fn pp self rng max_chars t []
      { out := [], size := 0, tries := 0, calls := t }
  | accept (log : List (Str × Bool)) (s : OutputState) (sentence : Str) (calls : Nat) :
      OutputRun fn pp self rng max_chars t log s → s.size ≤ max_chars →
      sentenceReturns fn pp self rng max_chars s.calls (sentence, calls) →
      ¬ (sentence.length + s.size ≥ max_chars) →
      OutputRun fn pp self rng max_chars t (log ++ [(sentence, true)])
        { out := s.out ++ [sentence],
          size := (s.size + (sentence.length + 1)) % UINT_RANGE,
          tries := 0, calls := calls }
  | reject (log : List (Str × Bool)) (s : OutputState) (sentence : Str) (calls : Nat) :
      OutputRun fn pp self rng max_chars t log s → s.size ≤ max_chars →
      sentenceReturns fn pp self rng max_chars s.calls (sentence, calls) →
      sentence.length + s.size ≥ max_chars → s.tries + 1 < TRY_LIMIT →
      OutputRun fn pp self rng max_chars t (log ++ [(sentence, false)])
        { s with tries := s.tries + 1, calls := calls }

/-! ## A sample hash and rendering, for concrete runs -/

/-- A sample string hash with 64-bit values. -/
def sampleHash (s : Str) : Nat :=
  s.foldl (fun h c => (h * 31 + c.toNat) % 2 ^ 64) 7

/-- A sample rendering of a key: its words between brackets, separated by a comma and a space. -/
def sampleShow (k : WordKey) : Str :=
  '[' :: ([',', ' '].intercalate k ++ [']'])

/-- A training text whose corpus has a cycle: the key `[a, a]` is followed by `a`. -/
def cycleText : Str := "a a a a a a.".toList

/-! ## The corpus map: lookups after insertions -/

theorem key_equal_iff (fn : Str → Nat) (pp : WordKey → Str) (a b : WordKey) :
    key_equal fn pp a b = true ↔ key_hash fn pp a = key_hash fn pp b := by
  simp [key_equal]

theorem find_push_back (fn : Str → Nat) (pp : WordKey → Str) (c : Corpus) (k K : WordKey)
    (w : Str) :
    find fn pp (push_back fn pp c k w) K =
      if key_equal fn pp k K then some (continuations fn pp c K ++ [w]) else find fn pp c K := by
  induction c with
  | nil => simp [push_back, find, continuations]
  | cons e rest ih =>
    obtain ⟨k', l⟩ := e
    simp only [push_back, find, continuations, key_equal] at ih ⊢
    by_cases h1 : key_hash fn pp k' = key_hash fn pp k <;>
    by_cases h2 : key_hash fn pp k' = key_hash fn pp K <;>
    by_cases h3 : key_hash fn pp k = key_hash fn pp K <;>
    simp_all [find, key_equal]

theorem continuations_push_back (fn : Str → Nat) (pp : WordKey → Str) (c : Corpus)
    (k K : WordKey) (w : Str) :
    continuations fn pp (push_back fn pp c k w) K =
      continuations fn pp c K ++ (if key_equal fn pp k K then [w] else []) := by
  unfold continuations
  rw [find_push_back]
  split <;> simp [continuations]

/-- Continuation list after a run of `push_back`s. -/
theorem continuations_foldl (fn : Str → Nat) (pp : WordKey → Str) (K : WordKey)
    (ts : List (WordKey × Str)) (c : Corpus) :
    continuations fn pp (ts.foldl (fun c t => push_back fn pp c t.1 t.2) c) K =
      continuations fn pp c K ++ (ts.filter (fun t => key_equal fn pp t.1 K)).map Prod.snd := by
  induction ts generalizing c with
  | nil => simp
  | cons t ts ih =>
    rw [List.foldl_cons, ih, continuations_push_back]
    by_cases h : key_equal fn pp t.1 K <;> simp [h, List.filter_cons]

theorem addSentence_eq_foldl (fn : Str → Nat) (pp : WordKey → Str) (c : Corpus) (s : Str) :
    addSentence fn pp c s =
      (transitions s).foldl (fun c t => push_back fn pp c t.1 t.2) c := by
  simp [addSentence, transitions, List.foldl_map]

theorem padded_length (s : Str) : (padded s).length = (parse s).length + 2 := by
  simp [padded, SIZE]


theorem createFromContainer_eq (p : List Str) (i : Nat) (h : i + 2 ≤ p.length) :
    createFromContainer p i = [p.getD i [], p.getD (i + 1) []] := by
  unfold createFromContainer SIZE
  have h0 : i < p.length := by omega
  have h1 : i + 1 < p.length := by omega
  rw [List.drop_eq_getElem_cons h0, List.drop_eq_getElem_cons h1]
  simp only [List.take_succ_cons, List.take_zero, List.getD_eq_getElem?_getD,
    List.getElem?_eq_getElem h0, List.getElem?_eq_getElem h1, Option.getD_some]

theorem stored_push_back (fn : Str → Nat) (pp : WordKey → Str) (c : Corpus) (k : WordKey)
    (w : Str) : stored (push_back fn pp c k w) = stored c + 1 := by
  induction c with
  | nil => simp [push_back, stored]
  | cons e rest ih =>
    obtain ⟨k', l⟩ := e
    unfold stored at ih ⊢
    by_cases h : key_equal fn pp k' k
    · simp [push_back, h]; omega
    · simp [push_back, h, ih]; omega

theorem stored_foldl (fn : Str → Nat) (pp : WordKey → Str) (ts : List (WordKey × Str))
    (c : Corpus) :
    stored (ts.foldl (fun c t => push_back fn pp c t.1 t.2) c) = stored c + ts.length := by
  induction ts generalizing c with
  | nil => simp
  | cons t ts ih => rw [List.foldl_cons, ih, stored_push_back, List.length_cons]; omega

theorem transitions_length (s : Str) : (transitions s).length = (parse s).length := by
  simp [transitions, padded_length, SIZE]

/-! ## Sentence splitting -/

theorem learnedLoop_sentence (term : Char) (rest : Str) (hterm : term ∈ SENTENCE_PUNCT)
    (body : Str) :
    ∀ run : Str, (∀ c ∈ body, c ∉ SENTENCE_PUNCT) →
      learnedLoop run (body ++ term :: rest) =
        (if (run ++ body).length > MIN_THRESHOLD then [run ++ body ++ [term]] else []) ++
          learnedLoop [] rest := by
  induction body with
  | nil =>
    intro run _
    simp only [List.nil_append, List.append_nil]
    rw [learnedLoop]
    simp only [hterm, if_true]
    split <;> simp
  | cons ch body ih =>
    intro run hbody
    have hch : ch ∉ SENTENCE_PUNCT := hbody ch (List.mem_cons_self _ _)
    rw [List.cons_append, learnedLoop]
    simp only [hch, if_false]
    rw [ih (run ++ [ch]) (fun c hc => hbody c (List.mem_cons_of_mem _ hc))]
    simp

theorem firstPunct_none (s : Str) (h : firstPunct s = none) : ∀ c ∈ s, c ∉ SENTENCE_PUNCT := by
  induction s with
  | nil => simp
  | cons ch s ih =>
    unfold firstPunct at h
    by_cases hc : ch ∈ SENTENCE_PUNCT
    · simp [hc] at h
    · simp only [hc, if_false, Option.map_eq_none'] at h
      intro c hm
      rcases List.mem_cons.mp hm with e | hm
      · rw [e]; exact hc
      · exact ih h c hm

theorem firstPunct_some (s : Str) (n : Nat) (h : firstPunct s = some n) :
    ∃ (t : Char) (rest : Str), s = s.take n ++ t :: rest ∧ (s.take n).length = n ∧
      t ∈ SENTENCE_PUNCT ∧ (∀ c ∈ s.take n, c ∉ SENTENCE_PUNCT) ∧ s.drop (n + 1) = rest ∧
      s.take (n + 1) = s.take n ++ [t] := by
  induction s generalizing n with
  | nil => simp [firstPunct] at h
  | cons ch s ih =>
    unfold firstPunct at h
    by_cases hc : ch ∈ SENTENCE_PUNCT
    · simp only [hc, if_true, Option.some.injEq] at h
      subst h
      exact ⟨ch, s, by simp, by simp, hc, by simp, by simp, by simp⟩
    · simp only [hc, if_false, Option.map_eq_some'] at h
      obtain ⟨m, hm, rfl⟩ := h
      obtain ⟨t, rest, h1, h2, h3, h4, h5, h6⟩ := ih m hm
      refine ⟨t, rest, ?_, by simp [h2], h3, ?_, by simpa using h5, ?_⟩
      · rw [List.take_succ_cons, List.cons_append, ← h1]
      · intro c hm'
        rw [List.take_succ_cons] at hm'
        rcases List.mem_cons.mp hm' with e | hm'
        · rw [e]; exact hc
        · exact h4 c hm'
      · rw [List.take_succ_cons, List.take_succ_cons, h6]; rfl

theorem learnedLoop_no_punct (rest : Str) (h : ∀ c ∈ rest, c ∉ SENTENCE_PUNCT) :
    ∀ run : Str, learnedLoop run rest = [] := by
  induction rest with
  | nil => intro run; rfl
  | cons ch rest ih =>
    intro run
    rw [learnedLoop]
    simp only [h ch (List.mem_cons_self _ _), if_false]
    exact ih (fun c hc => h c (List.mem_cons_of_mem _ hc)) _

theorem addFromStringLoop_eq_foldl (fn : Str → Nat) (pp : WordKey → Str) (str : Str)
    (fuel : Nat) :
    ∀ (self : Corpus) (prev : Nat), (str.drop prev).length < fuel →
      addFromStringLoop fn pp str fuel self prev (find_first_of str prev) =
        (learnedLoop [] (str.drop prev)).foldl (addSentence fn pp) self := by
  induction fuel with
  | zero => intro self prev h; omega
  | succ fuel ih =>
    intro self prev hfuel
    cases hf : firstPunct (str.drop prev) with
    | none =>
      rw [learnedLoop_no_punct _ (firstPunct_none _ hf)]
      simp [find_first_of, hf, addFromStringLoop]
    | some n =>
      obtain ⟨t, rest, h1, h2, h3, h4, h5, h6⟩ := firstPunct_some _ n hf
      have hfind : find_first_of str prev = some (n + prev) := by simp [find_first_of, hf]
      rw [hfind, addFromStringLoop]
      have hdrop : str.drop (n + prev + 1) = rest := by
        rw [← h5, List.drop_drop]; congr 1; omega
      have hlen : rest.length < fuel := by
        have := congrArg List.length h1
        rw [List.length_append, List.length_cons, h2] at this
        omega
      rw [show n + prev + 1 - prev = n + 1 by omega, show n + prev - prev = n by omega, h6]
      have hih := ih (if n > MIN_THRESHOLD then
          addSentence fn pp self (List.take n (List.drop prev str) ++ [t]) else self)
        (n + prev + 1) (by rw [hdrop]; exact hlen)
      rw [hih, hdrop]
      conv_rhs => rw [h1, learnedLoop_sentence t rest h3 _ [] h4]
      simp only [List.nil_append, h2, List.foldl_append]
      by_cases hn : n > MIN_THRESHOLD <;> simp [hn]

theorem addFromString_eq_foldl (fn : Str → Nat) (pp : WordKey → Str) (c : Corpus) (str : Str) :
    addFromString fn pp c str = (learned str).foldl (addSentence fn pp) c := by
  unfold addFromString learned
  have := addFromStringLoop_eq_foldl fn pp str (str.length + 1) c 0 (by simp)
  simpa using this

/-- More fuel than `str.length` never changes what the loop of `addFromString` returns. -/
theorem addFromStringLoop_fuel (fn : Str → Nat) (pp : WordKey → Str) (c : Corpus) (str : Str)
    (fuel : Nat) (h : str.length < fuel) :
    addFromStringLoop fn pp str fuel c 0 (find_first_of str 0) = addFromString fn pp c str := by
  rw [addFromString_eq_foldl]
  have := addFromStringLoop_eq_foldl fn pp str fuel c 0 (by simpa using h)
  simpa [learned] using this

theorem learnedLoop_eq_filter (rest : Str) :
    ∀ run : Str, learnedLoop run rest =
      (runsLoop run rest).filter (fun r => decide (MIN_THRESHOLD + 1 < r.length)) := by
  induction rest with
  | nil => intro run; simp [learnedLoop, runsLoop]
  | cons ch rest ih =>
    intro run
    unfold learnedLoop runsLoop
    by_cases h1 : ch ∈ SENTENCE_PUNCT
    · by_cases h2 : run.length > MIN_THRESHOLD
      · have h3 : MIN_THRESHOLD + 1 < (run ++ [ch]).length := by simp; omega
        simp only [h1, h2, if_true, List.filter_cons, h3, decide_True]
        rw [ih]
      · have h3 : ¬ MIN_THRESHOLD + 1 < (run ++ [ch]).length := by simp; omega
        simp only [h1, h2, if_true, if_false, List.filter_cons, h3, decide_False]
        rw [ih]; simp
    · simp only [h1, if_false]; exact ih _

theorem runsLoop_shape (rest : Str) :
    ∀ run : Str, (∀ x ∈ run, x ∉ SENTENCE_PUNCT) →
      (∃ tail : Str, (∀ x ∈ tail, x ∉ SENTENCE_PUNCT) ∧
        run ++ rest = (runsLoop run rest).flatten ++ tail) ∧
      ∀ r ∈ runsLoop run rest, ∃ (body : Str) (t : Char),
        r = body ++ [t] ∧ t ∈ SENTENCE_PUNCT ∧ ∀ x ∈ body, x ∉ SENTENCE_PUNCT := by
  induction rest with
  | nil =>
    intro run hrun
    exact ⟨⟨run, hrun, by simp [runsLoop]⟩, by simp [runsLoop]⟩
  | cons ch rest ih =>
    intro run hrun
    unfold runsLoop
    by_cases h1 : ch ∈ SENTENCE_PUNCT
    · simp only [h1, if_true]
      obtain ⟨⟨tail, htail, heq⟩, hall⟩ := ih [] (by simp)
      refine ⟨⟨tail, htail, ?_⟩, ?_⟩
      · simp only [List.flatten_cons, List.nil_append] at heq ⊢
        rw [List.append_assoc, List.append_assoc, ← heq]; simp
      · intro r hr
        rcases List.mem_cons.mp hr with e | hr
        · exact ⟨run, ch, e, h1, hrun⟩
        · exact hall r hr
    · simp only [h1, if_false]
      have hrun' : ∀ x ∈ run ++ [ch], x ∉ SENTENCE_PUNCT := by
        intro x hx
        rcases List.mem_append.mp hx with hx | hx
        · exact hrun x hx
        · simp at hx; rw [hx]; exact h1
      obtain ⟨⟨tail, htail, heq⟩, hall⟩ := ih (run ++ [ch]) hrun'
      refine ⟨⟨tail, htail, ?_⟩, hall⟩
      rw [← heq]; simp

theorem foldl_addSentence (fn : Str → Nat) (pp : WordKey → Str) (rs : List Str) :
    ∀ c : Corpus, rs.foldl (addSentence fn pp) c =
      (rs.flatMap transitions).foldl (fun c t => push_back fn pp c t.1 t.2) c := by
  induction rs with
  | nil => intro c; simp
  | cons r rs ih =>
    intro c
    rw [List.foldl_cons, ih, addSentence_eq_foldl, List.flatMap_cons, List.foldl_append]

theorem continuations_addFromString (fn : Str → Nat) (pp : WordKey → Str) (c : Corpus)
    (str : Str) (K : WordKey) :
    continuations fn pp (addFromString fn pp c str) K =
      continuations fn pp c K ++
        (((learned str).flatMap transitions).filter (fun t => key_equal fn pp t.1 K)).map
          Prod.snd := by
  rw [addFromString_eq_foldl, foldl_addSentence, continuations_foldl]

/-! ## Generation: keys, and the empty corpus -/

theorem createFromContainer_push (out : List Str) (offset : Nat) (w : Str)
    (h : offset + 2 = out.length) :
    createFromContainer (out ++ [w]) (offset + 1) = (createFromContainer out offset).tail ++ [w] := by
  unfold createFromContainer SIZE
  have h1 : offset + 1 ≤ out.length := by omega
  rw [List.drop_append_of_le_length h1]
  have h2 : (List.drop (offset + 1) out).length = 1 := by simp; omega
  have h3 : (List.drop offset out).length = 2 := by simp; omega
  rw [List.take_of_length_le (by simp; omega), List.take_of_length_le (by omega)]
  congr 1
  rw [List.tail_drop]

theorem yieldSentence_empty (fn : Str → Nat) (pp : WordKey → Str) (rng : Nat → Nat)
    (sfuel t max_chars : Nat) :
    yieldSentence fn pp [] rng (sfuel + 1) t max_chars = .ok ([], t) := by
  simp [yieldSentence, yieldSentenceLoop, yieldSentenceStep, find, sentenceStart, print, SIZE]

theorem yieldOutputLoop_empty_reject (fn : Str → Nat) (pp : WordKey → Str) (rng : Nat → Nat)
    (sfuel max_chars : Nat) (j : Nat) :
    ∀ (fuel : Nat) (s : OutputState), s.size = max_chars → s.tries + (j + 1) = TRY_LIMIT →
      j + 1 ≤ fuel →
      yieldOutputLoop fn pp [] rng (sfuel + 1) max_chars fuel s =
        .ok { s with tries := TRY_LIMIT } := by
  induction j with
  | zero =>
    intro fuel s hs ht hf
    obtain ⟨fuel, rfl⟩ : ∃ f, fuel = f + 1 := ⟨fuel - 1, by omega⟩
    have h1 : ¬ s.tries + 1 < TRY_LIMIT := by omega
    have h2 : s.tries + 1 = TRY_LIMIT := by omega
    simp [yieldOutputLoop, yieldSentence_empty, hs, h1, h2]
  | succ j ih =>
    intro fuel s hs ht hf
    obtain ⟨fuel, rfl⟩ : ∃ f, fuel = f + 1 := ⟨fuel - 1, by omega⟩
    have h1 : s.tries + 1 < TRY_LIMIT := by omega
    simp only [yieldOutputLoop, yieldSentence_empty, hs, h1, le_refl, if_true, List.length_nil,
      zero_add, ge_iff_le]
    exact ih fuel ⟨s.out, max_chars, s.tries + 1, s.calls⟩ rfl (by show s.tries + 1 + (j + 1) = TRY_LIMIT; omega) (by omega)

theorem yieldOutputLoop_empty (fn : Str → Nat) (pp : WordKey → Str) (rng : Nat → Nat)
    (sfuel max_chars t : Nat) (hm : max_chars < UINT_RANGE) (d : Nat) :
    ∀ (fuel n : Nat), n + d = max_chars → d + TRY_LIMIT ≤ fuel →
      yieldOutputLoop fn pp [] rng (sfuel + 1) max_chars fuel
          { out := List.replicate n [], size := n, tries := 0, calls := t } =
        .ok { out := List.replicate max_chars [], size := max_chars, tries := TRY_LIMIT,
              calls := t } := by
  induction d with
  | zero =>
    intro fuel n hn hf
    have hn' : n = max_chars := by omega
    subst hn'
    rw [yieldOutputLoop_empty_reject fn pp rng sfuel n 4 fuel _ rfl (by simp [TRY_LIMIT])
      (by simp [TRY_LIMIT] at hf; omega)]
  | succ d ih =>
    intro fuel n hn hf
    obtain ⟨fuel, rfl⟩ : ∃ f, fuel = f + 1 := ⟨fuel - 1, by omega⟩
    have h1 : n ≤ max_chars := by omega
    have h2 : ¬ n ≥ max_chars := by omega
    have h3 : (n + 1) % UINT_RANGE = n + 1 := Nat.mod_eq_of_lt (by omega)
    simp only [yieldOutputLoop, yieldSentence_empty, h1, h2, if_true, if_false, List.length_nil,
      zero_add, h3]
    have h4 : List.replicate n ([] : Str) ++ [[]] = List.replicate (n + 1) [] := by
      rw [List.replicate_succ']
    rw [h4]
    exact ih fuel (n + 1) (by omega) (by omega)

theorem print_replicate_nil (m : Nat) :
    print (List.replicate m []) SPACE = List.replicate (m - 1) ' ' := by
  have h : ((List.replicate m ([] : Str)).map (fun w => w ++ SPACE)).flatten
      = List.replicate m ' ' := by
    induction m with
    | zero => rfl
    | succ m ih => rw [List.replicate_succ, List.map_cons, List.flatten_cons, ih]; rfl
  unfold print
  simp only [h, List.length_replicate]
  split
  · rw [List.take_replicate]; congr 1; omega
  · have : m = 0 := by omega
    subst this; rfl

/-! ## Generation: the walk on a cycle -/

theorem cycle_lookup :
    ∀ k ∈ [[BEGIN_STRING, BEGIN_STRING], [BEGIN_STRING, ['a']], [['a'], ['a']]],
      (find sampleHash sampleShow (MarkovCorpus sampleHash sampleShow cycleText) k).bind
        (fun l => l.get? (0 % l.length)) = some ['a'] := by
  decide

theorem cycle_step (max_chars : Nat) (s : SentenceState)
    (hlen : s.offset + 2 = s.out.length)
    (hk : createFromContainer s.out s.offset ∈
      [[BEGIN_STRING, BEGIN_STRING], [BEGIN_STRING, ['a']], [['a'], ['a']]]) :
    ∃ s', yieldSentenceStep sampleHash sampleShow (MarkovCorpus sampleHash sampleShow cycleText)
        (fun _ => 0) max_chars s = .next s' ∧
      s'.offset + 2 = s'.out.length ∧
      createFromContainer s'.out s'.offset ∈
        [[BEGIN_STRING, BEGIN_STRING], [BEGIN_STRING, ['a']], [['a'], ['a']]] := by
  have hl := cycle_lookup _ hk
  unfold yieldSentenceStep
  cases hf : find sampleHash sampleShow (MarkovCorpus sampleHash sampleShow cycleText)
      (createFromContainer s.out s.offset) with
  | none => rw [hf] at hl; simp at hl
  | some l =>
    rw [hf] at hl
    change l.get? ((fun _ => 0) s.calls % l.length) = some ['a'] at hl
    simp only [hl]
    have hne : (['a'] : Str) ≠ END_STRING := by decide
    simp only [hne, if_false]
    split
    · exact ⟨_, rfl, hlen, hk⟩
    · refine ⟨_, rfl, by simp; omega, ?_⟩
      simp only []
      rw [createFromContainer_push _ _ _ hlen]
      simp only [List.mem_cons, List.mem_singleton, List.not_mem_nil, or_false] at hk ⊢
      rcases hk with h | h | h <;> rw [h] <;> simp

theorem cycle_loop (max_chars : Nat) (fuel : Nat) :
    ∀ s : SentenceState, s.offset + 2 = s.out.length →
      createFromContainer s.out s.offset ∈
        [[BEGIN_STRING, BEGIN_STRING], [BEGIN_STRING, ['a']], [['a'], ['a']]] →
      yieldSentenceLoop sampleHash sampleShow (MarkovCorpus sampleHash sampleShow cycleText)
        (fun _ => 0) max_chars fuel s = .error .timeout := by
  induction fuel with
  | zero => intro s _ _; rfl
  | succ fuel ih =>
    intro s hlen hk
    obtain ⟨s', hstep, hlen', hk'⟩ := cycle_step max_chars s hlen hk
    unfold yieldSentenceLoop
    rw [hstep]
    exact ih s' hlen' hk'

/-! ## Stored words -/

theorem readWords_wordOk (rest : Str) :
    ∀ cur : Str, (∀ c ∈ cur, isspace c = false) → ∀ w ∈ readWords cur rest, wordOk w := by
  induction rest with
  | nil =>
    intro cur hcur w hw
    unfold readWords at hw
    by_cases he : cur.isEmpty = true
    · simp [he] at hw
    · simp only [he, Bool.false_eq_true, if_false, List.mem_singleton] at hw
      subst hw
      refine ⟨?_, ?_⟩
      · intro h; apply he; simpa using h
      · intro c hc; exact hcur c (List.mem_reverse.mp hc)
  | cons ch rest ih =>
    intro cur hcur w hw
    unfold readWords at hw
    by_cases hs : isspace ch = true
    · by_cases he : cur.isEmpty = true
      · simp only [hs, he, if_true] at hw
        exact ih [] (by simp) w hw
      · simp only [hs, he, Bool.false_eq_true, if_true, if_false, List.mem_cons] at hw
        rcases hw with hw | hw
        · subst hw
          refine ⟨?_, ?_⟩
          · intro h; apply he; simpa using h
          · intro c hc; exact hcur c (List.mem_reverse.mp hc)
        · exact ih [] (by simp) w hw
    · simp only [hs, Bool.false_eq_true, if_false] at hw
      refine ih (ch :: cur) ?_ w hw
      intro c hc
      rcases List.mem_cons.mp hc with h | h
      · subst h; simpa using hs
      · exact hcur c h

theorem parse_wordOk (s : Str) : ∀ w ∈ parse s, wordOk w :=
  readWords_wordOk s [] (by simp)

theorem transitions_wordOk (s : Str) : ∀ t ∈ transitions s, wordOk t.2 := by
  intro t ht
  unfold transitions at ht
  obtain ⟨i, hi, rfl⟩ := List.mem_map.mp ht
  have hi' : i < (parse s).length := by
    have := List.mem_range.mp hi
    rw [padded_length] at this
    simpa [SIZE] using this
  apply parse_wordOk s
  have : (padded s).getD (i + SIZE) [] = (parse s)[i] := by
    simp [padded, SIZE, List.getD_eq_getElem?_getD, List.getElem?_append_right, hi']
  simp only [this]
  exact List.getElem_mem _

theorem push_back_corpusOk (fn : Str → Nat) (pp : WordKey → Str) (c : Corpus) (k : WordKey)
    (w : Str) (hc : corpusOk c) (hw : wordOk w) : corpusOk (push_back fn pp c k w) := by
  induction c with
  | nil =>
    intro e he
    simp only [push_back, List.mem_singleton] at he
    subst he
    exact ⟨by simp, by simpa using hw⟩
  | cons e0 rest ih =>
    obtain ⟨k', l⟩ := e0
    have hrest : corpusOk rest := fun e he => hc e (List.mem_cons_of_mem _ he)
    have h0 := hc (k', l) (List.mem_cons_self _ _)
    intro e he
    unfold push_back at he
    by_cases h : key_equal fn pp k' k = true
    · simp only [h, if_true, List.mem_cons] at he
      rcases he with he | he
      · subst he
        refine ⟨by simp, ?_⟩
        intro x hx
        rcases List.mem_append.mp hx with hx | hx
        · exact h0.2 x hx
        · simp at hx; subst hx; exact hw
      · exact hrest e he
    · simp only [h, Bool.false_eq_true, if_false, List.mem_cons] at he
      rcases he with he | he
      · subst he; exact h0
      · exact ih hrest e he

theorem foldl_push_back_corpusOk (fn : Str → Nat) (pp : WordKey → Str)
    (ts : List (WordKey × Str)) (hts : ∀ t ∈ ts, wordOk t.2) :
    ∀ c : Corpus, corpusOk c →
      corpusOk (ts.foldl (fun c t => push_back fn pp c t.1 t.2) c) := by
  induction ts with
  | nil => intro c hc; exact hc
  | cons t ts ih =>
    intro c hc
    rw [List.foldl_cons]
    exact ih (fun t' ht' => hts t' (List.mem_cons_of_mem _ ht')) _
      (push_back_corpusOk fn pp c t.1 t.2 hc (hts t (List.mem_cons_self _ _)))

theorem addSentence_corpusOk (fn : Str → Nat) (pp : WordKey → Str) (c : Corpus) (s : Str)
    (hc : corpusOk c) : corpusOk (addSentence fn pp c s) := by
  rw [addSentence_eq_foldl]
  exact foldl_push_back_corpusOk fn pp _ (transitions_wordOk s) c hc

theorem addFromString_corpusOk (fn : Str → Nat) (pp : WordKey → Str) (c : Corpus) (s : Str)
    (hc : corpusOk c) : corpusOk (addFromString fn pp c s) := by
  rw [addFromString_eq_foldl, foldl_addSentence]
  apply foldl_push_back_corpusOk fn pp _ _ c hc
  intro t ht
  obtain ⟨r, _, hr⟩ := List.mem_flatMap.mp ht
  exact transitions_wordOk r t hr

theorem reachable_corpusOk (fn : Str → Nat) (pp : WordKey → Str) (c : Corpus)
    (h : Reachable fn pp c) : corpusOk c := by
  induction h with
  | empty => intro e he; simp at he
  | addSentence self s _ ih => exact addSentence_corpusOk fn pp self s ih
  | addFromString self s _ ih => exact addFromString_corpusOk fn pp self s ih

theorem find_mem (fn : Str → Nat) (pp : WordKey → Str) (c : Corpus) (K : WordKey)
    (l : WordList) (h : find fn pp c K = some l) : ∃ k, (k, l) ∈ c := by
  induction c with
  | nil => simp [find] at h
  | cons e rest ih =>
    obtain ⟨k', l'⟩ := e
    unfold find at h
    by_cases hk : key_equal fn pp k' K = true
    · simp only [hk, if_true, Option.some.injEq] at h
      subst h
      exact ⟨k', List.mem_cons_self _ _⟩
    · simp only [hk, Bool.false_eq_true, if_false] at h
      obtain ⟨k, hk⟩ := ih h
      exact ⟨k, List.mem_cons_of_mem _ hk⟩

/-! ## Generation: what a pass of the loop does to the word list -/

theorem yieldSentenceStep_next (fn : Str → Nat) (pp : WordKey → Str) (c : Corpus)
    (rng : Nat → Nat) (max_chars : Nat) (s s' : SentenceState)
    (h : yieldSentenceStep fn pp c rng max_chars s = .next s') :
    s'.calls = s.calls + 1 ∧
    ((s'.out = s.out ∧ s'.offset = s.offset ∧ s'.tries = s.tries + 1 ∧
        s.tries + 1 ≤ TRY_LIMIT) ∨
      (∃ l word, find fn pp c (createFromContainer s.out s.offset) = some l ∧ word ∈ l ∧
        word ≠ END_STRING ∧ s'.out = s.out ++ [word] ∧ s'.offset = s.offset + 1 ∧
        s'.tries = 0)) := by
  unfold yieldSentenceStep at h
  cases hf : find fn pp c (createFromContainer s.out s.offset) with
  | none => rw [hf] at h; simp at h
  | some l =>
    rw [hf] at h
    simp only [] at h
    cases hg : l.get? (rng s.calls % l.length) with
    | none => rw [hg] at h; simp at h
    | some word =>
      rw [hg] at h
      simp only [] at h
      by_cases he : word = END_STRING
      · simp [he] at h
      · simp only [he, if_false] at h
        split at h
        · rename_i hc
          injection h with h
          subst h
          exact ⟨rfl, Or.inl ⟨rfl, rfl, rfl, hc.2⟩⟩
        · injection h with h
          subst h
          exact ⟨rfl, Or.inr ⟨l, word, rfl, List.get?_mem hg, he, rfl, rfl, rfl⟩⟩

theorem yieldSentenceStep_stop (fn : Str → Nat) (pp : WordKey → Str) (c : Corpus)
    (rng : Nat → Nat) (max_chars : Nat) (s s' : SentenceState)
    (h : yieldSentenceStep fn pp c rng max_chars s = .stop s') :
    s'.out = s.out ∧ s'.offset = s.offset := by
  unfold yieldSentenceStep at h
  cases hf : find fn pp c (createFromContainer s.out s.offset) with
  | none =>
    rw [hf] at h
    injection h with h
    subst h
    exact ⟨rfl, rfl⟩
  | some l =>
    rw [hf] at h
    simp only [] at h
    cases hg : l.get? (rng s.calls % l.length) with
    | none => rw [hg] at h; simp at h
    | some word =>
      rw [hg] at h
      simp only [] at h
      by_cases he : word = END_STRING
      · simp only [he, if_true] at h
        injection h with h
        subst h
        exact ⟨rfl, rfl⟩
      · simp only [he, if_false] at h
        split at h <;> simp at h

theorem yieldSentenceLoop_induct (fn : Str → Nat) (pp : WordKey → Str) (c : Corpus)
    (rng : Nat → Nat) (max_chars : Nat) (P : SentenceState → Prop)
    (hnext : ∀ s s', P s → yieldSentenceStep fn pp c rng max_chars s = .next s' → P s')
    (hstop : ∀ s s', P s → yieldSentenceStep fn pp c rng max_chars s = .stop s' → P s')
    (fuel : Nat) :
    ∀ s s', P s → yieldSentenceLoop fn pp c rng max_chars fuel s = .ok s' → P s' := by
  induction fuel with
  | zero => intro s s' _ h; simp [yieldSentenceLoop] at h
  | succ fuel ih =>
    intro s s' hP h
    unfold yieldSentenceLoop at h
    cases hs : yieldSentenceStep fn pp c rng max_chars s with
    | next s1 =>
      rw [hs] at h
      exact ih s1 s' (hnext s s1 hP hs) h
    | stop s1 =>
      rw [hs] at h
      injection h with h
      subst h
      exact hstop s s1 hP hs
    | fault => rw [hs] at h; simp at h

/-- The words appended by `yieldSentence` are stored words of the corpus. -/
theorem yieldSentenceLoop_words (fn : Str → Nat) (pp : WordKey → Str) (c : Corpus)
    (rng : Nat → Nat) (max_chars fuel t : Nat) (s' : SentenceState)
    (h : yieldSentenceLoop fn pp c rng max_chars fuel (sentenceStart t) = .ok s') :
    ∃ ws : List Str, s'.out = BEGIN_STRING :: BEGIN_STRING :: ws ∧
      ∀ w ∈ ws, w ≠ END_STRING ∧ ∃ k l, (k, l) ∈ c ∧ w ∈ l := by
  refine yieldSentenceLoop_induct fn pp c rng max_chars
    (fun s => ∃ ws : List Str, s.out = BEGIN_STRING :: BEGIN_STRING :: ws ∧
      ∀ w ∈ ws, w ≠ END_STRING ∧ ∃ k l, (k, l) ∈ c ∧ w ∈ l) ?_ ?_ fuel (sentenceStart t) s'
    ⟨[], rfl, by simp⟩ h
  · intro s s1 ⟨ws, hws, hall⟩ hstep
    obtain ⟨_, hcase⟩ := yieldSentenceStep_next fn pp c rng max_chars s s1 hstep
    rcases hcase with ⟨ho, _⟩ | ⟨l, word, hf, hm, hne, ho, _⟩
    · exact ⟨ws, by rw [ho, hws], hall⟩
    · refine ⟨ws ++ [word], by rw [ho, hws]; simp, ?_⟩
      intro w hw
      rcases List.mem_append.mp hw with hw | hw
      · exact hall w hw
      · simp at hw; subst hw
        obtain ⟨k, hk⟩ := find_mem fn pp c _ l hf
        exact ⟨hne, k, l, hk, hm⟩
  · intro s s1 ⟨ws, hws, hall⟩ hstep
    obtain ⟨ho, _⟩ := yieldSentenceStep_stop fn pp c rng max_chars s s1 hstep
    exact ⟨ws, by rw [ho, hws], hall⟩

/-! ## Printing -/

theorem print_eq_intercalate (ws : List Str) : print ws SPACE = SPACE.intercalate ws := by
  have key : ∀ ws : List Str, ws ≠ [] →
      (ws.map (fun w => w ++ SPACE)).flatten = SPACE.intercalate ws ++ SPACE := by
    intro ws
    induction ws with
    | nil => intro h; exact absurd rfl h
    | cons w ws ih =>
      intro _
      cases ws with
      | nil => simp [List.intercalate]
      | cons w' ws' =>
        have := ih (by simp)
        rw [List.map_cons, List.flatten_cons, this]
        simp [List.intercalate]
  unfold print
  cases ws with
  | nil => simp [List.intercalate]
  | cons w ws' =>
    rw [key (w :: ws') (by simp)]
    simp [SPACE]

theorem intercalate_cons_cons (sep w w' : Str) (ws : List Str) :
    sep.intercalate (w :: w' :: ws) = w ++ sep ++ sep.intercalate (w' :: ws) := by
  simp [List.intercalate]

theorem wordOk_no_space (w : Str) (h : wordOk w) : ' ' ∉ w := by
  intro hm
  have := h.2 ' ' hm
  revert this
  decide

theorem intercalate_format (ws : List Str) (h : ∀ w ∈ ws, w ≠ [] ∧ ' ' ∉ w) :
    (ws ≠ [] → SPACE.intercalate ws ≠ []) ∧
    (SPACE.intercalate ws).head? ≠ some ' ' ∧
    (SPACE.intercalate ws).getLast? ≠ some ' ' ∧
    (SPACE.intercalate ws).Chain' (fun a b => ¬ (a = ' ' ∧ b = ' ')) := by
  have hword : ∀ w : Str, w ≠ [] → ' ' ∉ w →
      w.head? ≠ some ' ' ∧ w.getLast? ≠ some ' ' ∧
        w.Chain' (fun a b => ¬ (a = ' ' ∧ b = ' ')) := by
    intro w _ hs
    refine ⟨?_, ?_, ?_⟩
    · intro hh; exact hs (List.mem_of_mem_head? hh)
    · intro hh; exact hs (List.mem_of_mem_getLast? hh)
    · apply List.Pairwise.chain'
      apply List.pairwise_of_forall_mem_list
      intro a ha b _ hab
      exact hs (hab.1 ▸ ha)
  induction ws with
  | nil => simp [List.intercalate]
  | cons w ws ih =>
    have hw := h w (List.mem_cons_self _ _)
    cases ws with
    | nil =>
      have : SPACE.intercalate [w] = w := by simp [List.intercalate]
      rw [this]
      exact ⟨fun _ => hw.1, hword w hw.1 hw.2⟩
    | cons w' ws' =>
      obtain ⟨ih0, ih1, ih2, ih3⟩ := ih (fun x hx => h x (List.mem_cons_of_mem _ hx))
      have hne := ih0 (by simp)
      obtain ⟨hw1, hw2, hw3⟩ := hword w hw.1 hw.2
      rw [intercalate_cons_cons]
      obtain ⟨c, cs, hcs⟩ := List.exists_cons_of_ne_nil hw.1
      refine ⟨by simp [hw.1], ?_, ?_, ?_⟩
      · rw [List.append_assoc, List.head?_append_of_ne_nil _ hw.1]; exact hw1
      · rw [List.getLast?_append_of_ne_nil _ hne]; exact ih2
      · rw [List.append_assoc, List.chain'_append]
        refine ⟨hw3, ?_, ?_⟩
        · simp only [SPACE, List.singleton_append]
          rw [List.chain'_cons']
          refine ⟨?_, ih3⟩
          intro y hy hxy
          apply ih1
          rw [← hxy.2]; exact hy
        · intro x hx y _ hxy
          apply hw2
          rw [← hxy.1]; exact hx

/-! ## A repeated sentence -/

theorem accumulated_append (xs ys : List Str) : accumulated (xs ++ ys) = accumulated xs + accumulated ys := by
  simp [accumulated]

theorem print_length (ws : List Str) : (print ws SPACE).length = accumulated ws - 1 := by
  have h : ((ws.map (fun w => w ++ SPACE)).flatten).length = accumulated ws := by
    induction ws with
    | nil => rfl
    | cons w ws ih =>
      simp only [List.map_cons, List.flatten_cons, List.length_append, ih, accumulated, List.sum_cons]
      simp [SPACE]
  unfold print
  simp only [h]
  split
  · simp [h]
  · rw [h]; omega

theorem yieldOutputLoop_induct (fn : Str → Nat) (pp : WordKey → Str) (c : Corpus)
    (rng : Nat → Nat) (sfuel max_chars : Nat) (P : OutputState → Prop)
    (hacc : ∀ (s : OutputState) (sentence : Str) (calls : Nat), P s → s.size ≤ max_chars →
      yieldSentence fn pp c rng sfuel s.calls max_chars = .ok (sentence, calls) →
      sentence.length + s.size < max_chars →
      P { out := s.out ++ [sentence], size := (s.size + (sentence.length + 1)) % UINT_RANGE,
          tries := 0, calls := calls })
    (hrej : ∀ (s : OutputState) (sentence : Str) (calls : Nat), P s → s.size ≤ max_chars →
      yieldSentence fn pp c rng sfuel s.calls max_chars = .ok (sentence, calls) →
      max_chars ≤ sentence.length + s.size →
      P { s with tries := s.tries + 1, calls := calls })
    (fuel : Nat) :
    ∀ s s', P s → yieldOutputLoop fn pp c rng sfuel max_chars fuel s = .ok s' → P s' := by
  induction fuel with
  | zero => intro s s' _ h; simp [yieldOutputLoop] at h
  | succ fuel ih =>
    intro s s' hP h
    unfold yieldOutputLoop at h
    by_cases hsz : s.size ≤ max_chars
    · simp only [hsz, if_true] at h
      cases hy : yieldSentence fn pp c rng sfuel s.calls max_chars with
      | error e => rw [hy] at h; simp at h
      | ok r =>
        obtain ⟨sentence, calls⟩ := r
        rw [hy] at h
        simp only [] at h
        by_cases hbig : sentence.length + s.size ≥ max_chars
        · simp only [hbig, if_true] at h
          by_cases ht : s.tries + 1 < TRY_LIMIT
          · simp only [ht, if_true] at h
            exact ih _ s' (hrej s sentence calls hP hsz hy hbig) h
          · simp only [ht, if_false] at h
            injection h with h
            subst h
            exact hrej s sentence calls hP hsz hy hbig
        · simp only [hbig, if_false] at h
          exact ih _ s' (hacc s sentence calls hP hsz hy (by omega)) h
    · simp only [hsz, if_false] at h
      injection h with h
      subst h
      exact hP

/-- What holds of the variables of `yieldOutput` at every loop head: `size`
is the accumulated size of the accepted sentences and within the budget, and
every accepted sentence passed the test against the size accumulated before it. -/
theorem yieldOutputLoop_budget (fn : Str → Nat) (pp : WordKey → Str) (c : Corpus)
    (rng : Nat → Nat) (sfuel max_chars fuel t : Nat) (hm : max_chars < UINT_RANGE)
    (s' : OutputState)
    (h : yieldOutputLoop fn pp c rng sfuel max_chars fuel
      { out := [], size := 0, tries := 0, calls := t } = .ok s') :
    s'.size = accumulated s'.out ∧ s'.size ≤ max_chars ∧
    ∀ pre sent post, s'.out = pre ++ sent :: post → sent.length + accumulated pre < max_chars := by
  refine yieldOutputLoop_induct fn pp c rng sfuel max_chars
    (fun s => s.size = accumulated s.out ∧ s.size ≤ max_chars ∧
      ∀ pre sent post, s.out = pre ++ sent :: post → sent.length + accumulated pre < max_chars)
    ?_ ?_ fuel _ s' ⟨rfl, Nat.zero_le _, by simp⟩ h
  · intro s sentence calls ⟨h1, h2, h3⟩ _ _ hlt
    have hmod : (s.size + (sentence.length + 1)) % UINT_RANGE = s.size + (sentence.length + 1) :=
      Nat.mod_eq_of_lt (by omega)
    refine ⟨?_, ?_, ?_⟩
    · have h4 : accumulated [sentence] = sentence.length + 1 := by simp [accumulated]
      show (s.size + (sentence.length + 1)) % UINT_RANGE = accumulated (s.out ++ [sentence])
      rw [hmod, accumulated_append, h1, h4]
    · simp only [hmod]; omega
    · intro pre sent post heq
      simp only [] at heq
      rcases List.append_eq_append_iff.mp heq with ⟨a', ha, hb⟩ | ⟨c', ha, hb⟩
      · -- pre = s.out ++ a', [sentence] = a' ++ sent :: post
        cases a' with
        | nil =>
          simp only [List.nil_append, List.cons.injEq] at hb
          rw [ha, List.append_nil, ← hb.1, ← h1]
          exact hlt
        | cons x xs =>
          have := congrArg List.length hb
          simp at this
      · -- s.out = pre ++ c', sent :: post = c' ++ [sentence]
        cases c' with
        | nil =>
          simp only [List.nil_append, List.cons.injEq] at hb
          rw [List.append_nil] at ha
          rw [← ha, hb.1, ← h1]
          exact hlt
        | cons x xs =>
          simp only [List.cons_append, List.cons.injEq] at hb
          exact h3 pre sent xs (by rw [ha, hb.1])
  · intro s sentence calls ⟨h1, h2, h3⟩ _ _ _
    exact ⟨h1, h2, h3⟩

/-- With a random source that always returns the same value, starting the
draws `d` later only moves the count of draws. -/
theorem yieldSentenceLoop_const (fn : Str → Nat) (pp : WordKey → Str) (c : Corpus) (v : Nat)
    (max_chars d : Nat) (fuel : Nat) :
    ∀ s r : SentenceState,
      yieldSentenceLoop fn pp c (fun _ => v) max_chars fuel s = .ok r →
      yieldSentenceLoop fn pp c (fun _ => v) max_chars fuel { s with calls := s.calls + d } =
        .ok { r with calls := r.calls + d } := by
  induction fuel with
  | zero => intro s r h; simp [yieldSentenceLoop] at h
  | succ fuel ih =>
    intro s r h
    unfold yieldSentenceLoop at h ⊢
    unfold yieldSentenceStep at h ⊢
    simp only [] at h ⊢
    cases hf : find fn pp c (createFromContainer s.out s.offset) with
    | none =>
      rw [hf] at h
      simp only [Except.ok.injEq] at h
      subst h
      rfl
    | some l =>
      rw [hf] at h
      simp only [] at h ⊢
      cases hg : l.get? (v % l.length) with
      | none => rw [hg] at h; simp at h
      | some word =>
        rw [hg] at h
        simp only [] at h ⊢
        by_cases he : word = END_STRING
        · simp only [he, if_true, Except.ok.injEq] at h ⊢
          subst h
          simp only [SentenceState.mk.injEq, true_and]
          omega
        · simp only [he, if_false] at h ⊢
          by_cases hc : word.length + s.size ≥ max_chars ∧ s.tries + 1 ≤ TRY_LIMIT
          · simp only [hc, and_self, if_true] at h ⊢
            have := ih _ r h
            simp only [] at this
            rw [← this]
            congr 2
            omega
          · simp only [hc, if_false] at h ⊢
            have := ih _ r h
            simp only [] at this
            rw [← this]
            congr 2
            omega

theorem yieldSentence_const (fn : Str → Nat) (pp : WordKey → Str) (c : Corpus) (v : Nat)
    (max_chars fuel t : Nat) (str : Str) (n : Nat)
    (h : yieldSentence fn pp c (fun _ => v) fuel 0 max_chars = .ok (str, n)) :
    yieldSentence fn pp c (fun _ => v) fuel t max_chars = .ok (str, n + t) := by
  unfold yieldSentence at h ⊢
  cases hl : yieldSentenceLoop fn pp c (fun _ => v) max_chars fuel (sentenceStart 0) with
  | error e => rw [hl] at h; simp at h
  | ok r =>
    rw [hl] at h
    simp only [Except.ok.injEq, Prod.mk.injEq] at h
    have := yieldSentenceLoop_const fn pp c v max_chars t fuel (sentenceStart 0) r hl
    have hs : ({ sentenceStart 0 with calls := (sentenceStart 0).calls + t } : SentenceState) =
        sentenceStart t := by simp [sentenceStart]
    rw [hs] at this
    rw [this]
    simp only [h.1, h.2]

/-! ## Training only appends -/

theorem find_foldl_isSome (fn : Str → Nat) (pp : WordKey → Str) (K : WordKey)
    (ts : List (WordKey × Str)) :
    ∀ c : Corpus, find fn pp c K ≠ none →
      find fn pp (ts.foldl (fun c t => push_back fn pp c t.1 t.2) c) K ≠ none := by
  induction ts with
  | nil => intro c hc; exact hc
  | cons t ts ih =>
    intro c hc
    rw [List.foldl_cons]
    apply ih
    rw [find_push_back]
    split
    · simp
    · exact hc

theorem learnedLoop_append_no_punct (u : Str) (hu : ∀ c ∈ u, c ∉ SENTENCE_PUNCT) (t : Str) :
    ∀ run : Str, learnedLoop run (t ++ u) = learnedLoop run t := by
  induction t with
  | nil =>
    intro run
    rw [List.nil_append, learnedLoop_no_punct u hu]
    rfl
  | cons ch t ih =>
    intro run
    rw [List.cons_append, learnedLoop, learnedLoop]
    by_cases h1 : ch ∈ SENTENCE_PUNCT
    · by_cases h2 : run.length > MIN_THRESHOLD
      · simp only [h1, h2, if_true, ih]
      · simp only [h1, h2, if_true, if_false, ih]
    · simp only [h1, if_false, ih]

/-! ## Stored words are neither BEGIN nor END -/

theorem wordOk_ne_sentinel (w : Str) (h : wordOk w) : w ≠ BEGIN_STRING ∧ w ≠ END_STRING := by
  have hs := wordOk_no_space w h
  constructor
  · intro e; rw [e] at hs; exact hs (by decide)
  · intro e; rw [e] at hs; exact hs (by decide)

theorem find_corpusOk (fn : Str → Nat) (pp : WordKey → Str) (c : Corpus) (hc : corpusOk c)
    (K : WordKey) (l : WordList) (h : find fn pp c K = some l) :
    l ≠ [] ∧ ∀ w ∈ l, wordOk w := by
  obtain ⟨k, hk⟩ := find_mem fn pp c K l h
  exact hc (k, l) hk

/-- In a corpus whose lists are non-empty and hold no END, a pass of the loop
never fails, and it leaves the loop only on a key without entry. -/
theorem yieldSentenceStep_corpusOk (fn : Str → Nat) (pp : WordKey → Str) (c : Corpus)
    (hc : corpusOk c) (rng : Nat → Nat) (max_chars : Nat) (s : SentenceState) :
    yieldSentenceStep fn pp c rng max_chars s ≠ .fault ∧
    ∀ s', yieldSentenceStep fn pp c rng max_chars s = .stop s' →
      find fn pp c (createFromContainer s.out s.offset) = none ∧ s' = s := by
  unfold yieldSentenceStep
  cases hf : find fn pp c (createFromContainer s.out s.offset) with
  | none =>
    simp only []
    refine ⟨by simp, ?_⟩
    intro s' h
    injection h with h
    exact ⟨trivial, h.symm⟩
  | some l =>
    obtain ⟨hne, hw⟩ := find_corpusOk fn pp c hc _ l hf
    have hlt : rng s.calls % l.length < l.length := Nat.mod_lt _ (List.length_pos.mpr hne)
    have hg : l.get? (rng s.calls % l.length) = some (l.get ⟨_, hlt⟩) := List.get?_eq_get hlt
    simp only [hg]
    have hend : l.get ⟨_, hlt⟩ ≠ END_STRING :=
      (wordOk_ne_sentinel _ (hw _ (List.get_mem _ _ _))).2
    simp only [hend, if_false]
    constructor
    · split <;> simp
    · intro s' h
      split at h <;> simp at h

theorem yieldSentenceLoop_no_fault (fn : Str → Nat) (pp : WordKey → Str) (c : Corpus)
    (hc : corpusOk c) (rng : Nat → Nat) (max_chars : Nat) (fuel : Nat) :
    ∀ s, yieldSentenceLoop fn pp c rng max_chars fuel s ≠ .error .out_of_range := by
  induction fuel with
  | zero => intro s; simp [yieldSentenceLoop]
  | succ fuel ih =>
    intro s
    unfold yieldSentenceLoop
    have h := (yieldSentenceStep_corpusOk fn pp c hc rng max_chars s).1
    cases hs : yieldSentenceStep fn pp c rng max_chars s with
    | next s1 => exact ih s1
    | stop s1 => simp
    | fault => exact absurd hs h

/-- The loop returns the state of its last pass, the one that left it. -/
theorem yieldSentenceLoop_last (fn : Str → Nat) (pp : WordKey → Str) (c : Corpus)
    (rng : Nat → Nat) (max_chars : Nat) (P : SentenceState → Prop)
    (hnext : ∀ s s', P s → yieldSentenceStep fn pp c rng max_chars s = .next s' → P s')
    (fuel : Nat) :
    ∀ s s', P s → yieldSentenceLoop fn pp c rng max_chars fuel s = .ok s' →
      ∃ s0, P s0 ∧ yieldSentenceStep fn pp c rng max_chars s0 = .stop s' := by
  induction fuel with
  | zero => intro s s' _ h; simp [yieldSentenceLoop] at h
  | succ fuel ih =>
    intro s s' hP h
    unfold yieldSentenceLoop at h
    cases hs : yieldSentenceStep fn pp c rng max_chars s with
    | next s1 => rw [hs] at h; exact ih s1 s' (hnext s s1 hP hs) h
    | stop s1 =>
      rw [hs] at h
      injection h with h
      subst h
      exact ⟨s, hP, hs⟩
    | fault => rw [hs] at h; simp at h

/-- The loop keeps `offset + SIZE` equal to the length of the word list. -/
theorem yieldSentenceStep_offset (fn : Str → Nat) (pp : WordKey → Str) (c : Corpus)
    (rng : Nat → Nat) (max_chars : Nat) (s s' : SentenceState)
    (hs : s.offset + SIZE = s.out.length)
    (h : yieldSentenceStep fn pp c rng max_chars s = .next s') :
    s'.offset + SIZE = s'.out.length := by
  obtain ⟨_, hcase⟩ := yieldSentenceStep_next fn pp c rng max_chars s s' h
  rcases hcase with ⟨ho, hoff, _⟩ | ⟨l, word, _, _, _, ho, hoff, _⟩
  · rw [ho, hoff]; exact hs
  · rw [ho, hoff]; simp; omega

theorem createFromContainer_last (out : List Str) (offset : Nat)
    (h : offset + SIZE = out.length) :
    createFromContainer out offset = out.drop (out.length - SIZE) := by
  unfold createFromContainer
  have : out.length - SIZE = offset := by omega
  rw [this, List.take_of_length_le (by simp; omega)]

theorem createFromContainer_append (out : List Str) (w : Str) (i : Nat)
    (h : i + 2 ≤ out.length) :
    createFromContainer (out ++ [w]) i = createFromContainer out i := by
  unfold createFromContainer SIZE
  rw [List.drop_append_of_le_length (by omega), List.take_append_of_le_length (by simp; omega)]

/-! ## The first word of a sentence -/

theorem foldl_addSentence_reachable (fn : Str → Nat) (pp : WordKey → Str)
    (sentences : List Str) :
    ∀ c : Corpus, Reachable fn pp c → Reachable fn pp (sentences.foldl (addSentence fn pp) c) := by
  induction sentences with
  | nil => intro c hc; exact hc
  | cons s rest ih => intro c hc; exact ih _ (Reachable.addSentence c s hc)

/-- The reachable corpora are the corpora `addSentence` builds from a list of sentences. -/
theorem reachable_iff_foldl (fn : Str → Nat) (pp : WordKey → Str) (c : Corpus) :
    Reachable fn pp c ↔ ∃ sentences : List Str, c = sentences.foldl (addSentence fn pp) [] := by
  constructor
  · intro h
    induction h with
    | empty => exact ⟨[], rfl⟩
    | addSentence self s _ ih =>
      obtain ⟨l, hl⟩ := ih
      exact ⟨l ++ [s], by rw [List.foldl_append, ← hl]; rfl⟩
    | addFromString self s _ ih =>
      obtain ⟨l, hl⟩ := ih
      exact ⟨l ++ learned s, by rw [List.foldl_append, ← hl, addFromString_eq_foldl]⟩
  · rintro ⟨l, rfl⟩
    exact foldl_addSentence_reachable fn pp l [] Reachable.empty

theorem transitions_eq (s : Str) :
    transitions s = (List.range (parse s).length).map
      (fun i => (createFromContainer (BEGIN_STRING :: BEGIN_STRING :: parse s) i,
        (BEGIN_STRING :: BEGIN_STRING :: parse s).getD (i + 2) [])) := by
  unfold transitions
  have : padded s = BEGIN_STRING :: BEGIN_STRING :: parse s := rfl
  rw [this]
  simp [SIZE]

/-- A sentence with a word stores its first word under the all-BEGIN key. -/
theorem transitions_first (s : Str) (w : Str) (ws : List Str) (h : parse s = w :: ws) :
    ([BEGIN_STRING, BEGIN_STRING], w) ∈ transitions s := by
  rw [transitions_eq, h]
  refine List.mem_map.mpr ⟨0, List.mem_range.mpr (by simp), ?_⟩
  simp [createFromContainer, SIZE]

/-- Only the first window of a sentence has the all-BEGIN key. -/
theorem transitions_begin (s : Str) (x : WordKey × Str) (hx : x ∈ transitions s)
    (hk : x.1 = [BEGIN_STRING, BEGIN_STRING]) : (parse s).head? = some x.2 := by
  rw [transitions_eq] at hx
  obtain ⟨i, hi, rfl⟩ := List.mem_map.mp hx
  have hi := List.mem_range.mp hi
  simp only [] at hk
  rw [createFromContainer_eq _ i (by simp; omega)] at hk
  cases i with
  | zero =>
    cases hp : parse s with
    | nil => rw [hp] at hi; simp at hi
    | cons w ws => simp
  | succ j =>
    exfalso
    have h1 : (BEGIN_STRING :: BEGIN_STRING :: parse s).getD (j + 1 + 1) [] = BEGIN_STRING := by
      injection hk with _ h
      injection h
    have hj : j < (parse s).length := by omega
    have h2 : (BEGIN_STRING :: BEGIN_STRING :: parse s).getD (j + 1 + 1) [] = (parse s)[j] := by
      simp [List.getD_eq_getElem?_getD, hj]
    rw [h2] at h1
    exact (wordOk_ne_sentinel _ (parse_wordOk s _ (List.getElem_mem _))).1 h1

/-- In a corpus with well-formed lists where the all-BEGIN key has the entry
`l`, the word list the loop of `yieldSentence` returns starts with a word of `l`. -/
theorem yieldSentenceLoop_first (fn : Str → Nat) (pp : WordKey → Str) (c : Corpus)
    (hc : corpusOk c) (l : WordList)
    (hl : find fn pp c [BEGIN_STRING, BEGIN_STRING] = some l)
    (rng : Nat → Nat) (max_chars fuel t : Nat) (s' : SentenceState)
    (h : yieldSentenceLoop fn pp c rng max_chars fuel (sentenceStart t) = .ok s') :
    ∃ w ws, s'.out = BEGIN_STRING :: BEGIN_STRING :: w :: ws ∧ w ∈ l := by
  have hkey : createFromContainer [BEGIN_STRING, BEGIN_STRING] 0 =
      [BEGIN_STRING, BEGIN_STRING] := rfl
  have hnext : ∀ s s1 : SentenceState,
      ((s.out = [BEGIN_STRING, BEGIN_STRING] ∧ s.offset = 0) ∨
        ∃ w ws, s.out = BEGIN_STRING :: BEGIN_STRING :: w :: ws ∧ w ∈ l) →
      yieldSentenceStep fn pp c rng max_chars s = .next s1 →
      ((s1.out = [BEGIN_STRING, BEGIN_STRING] ∧ s1.offset = 0) ∨
        ∃ w ws, s1.out = BEGIN_STRING :: BEGIN_STRING :: w :: ws ∧ w ∈ l) := by
    intro s s1 hP hstep
    obtain ⟨_, hcase⟩ := yieldSentenceStep_next fn pp c rng max_chars s s1 hstep
    rcases hcase with ⟨ho, hoff, _⟩ | ⟨l', word, hf, hm, _, ho, _⟩
    · rcases hP with ⟨h1, h2⟩ | ⟨w, ws, h1, h2⟩
      · exact Or.inl ⟨by rw [ho, h1], by rw [hoff, h2]⟩
      · exact Or.inr ⟨w, ws, by rw [ho, h1], h2⟩
    · rcases hP with ⟨h1, h2⟩ | ⟨w, ws, h1, h2⟩
      · right
        rw [h1, h2, hkey, hl] at hf
        injection hf with hf
        subst hf
        exact ⟨word, [], by rw [ho, h1]; rfl, hm⟩
      · exact Or.inr ⟨w, ws ++ [word], by rw [ho, h1]; simp, h2⟩
  obtain ⟨s0, hP, hstop⟩ := yieldSentenceLoop_last fn pp c rng max_chars
    (fun s => (s.out = [BEGIN_STRING, BEGIN_STRING] ∧ s.offset = 0) ∨
      ∃ w ws, s.out = BEGIN_STRING :: BEGIN_STRING :: w :: ws ∧ w ∈ l)
    hnext fuel (sentenceStart t) s' (Or.inl ⟨rfl, rfl⟩) h
  obtain ⟨hnone, hs⟩ := (yieldSentenceStep_corpusOk fn pp c hc rng max_chars s0).2 s' hstop
  rcases hP with ⟨ho, hoff⟩ | hP
  · rw [ho, hoff, hkey, hl] at hnone
    simp at hnone
  · rw [hs]; exact hP

/-! ## Copies of a sentence separated by whitespace -/

theorem yieldSentenceLoop_fuel_mono (fn : Str → Nat) (pp : WordKey → Str) (c : Corpus)
    (rng : Nat → Nat) (max_chars k : Nat) :
    ∀ (fuel : Nat) (s r : SentenceState),
      yieldSentenceLoop fn pp c rng max_chars fuel s = .ok r →
      yieldSentenceLoop fn pp c rng max_chars (fuel + k) s = .ok r := by
  intro fuel
  induction fuel with
  | zero => intro s r h; simp [yieldSentenceLoop] at h
  | succ n ih =>
    intro s r h
    rw [Nat.add_right_comm]
    unfold yieldSentenceLoop at h ⊢
    cases hs : yieldSentenceStep fn pp c rng max_chars s with
    | stop s' => rw [hs] at h; exact h
    | fault => rw [hs] at h; simp at h
    | next s' => rw [hs] at h; exact ih s' r h

theorem yieldSentence_fuel_mono (fn : Str → Nat) (pp : WordKey → Str) (c : Corpus)
    (rng : Nat → Nat) (max_chars t fuel fuel' : Nat) (r : Str × Nat)
    (h : yieldSentence fn pp c rng fuel t max_chars = .ok r) (hle : fuel ≤ fuel') :
    yieldSentence fn pp c rng fuel' t max_chars = .ok r := by
  obtain ⟨k, rfl⟩ := Nat.exists_eq_add_of_le hle
  unfold yieldSentence at h ⊢
  cases hl : yieldSentenceLoop fn pp c rng max_chars fuel (sentenceStart t) with
  | error e => rw [hl] at h; simp at h
  | ok s =>
    rw [hl] at h
    rw [yieldSentenceLoop_fuel_mono fn pp c rng max_chars k fuel _ s hl]
    exact h

theorem yieldOutputLoop_fuel_mono (fn : Str → Nat) (pp : WordKey → Str) (c : Corpus)
    (rng : Nat → Nat) (sfuel max_chars k : Nat) :
    ∀ (fuel : Nat) (s : OutputState),
      yieldOutputLoop fn pp c rng sfuel max_chars fuel s ≠ .error .timeout →
      yieldOutputLoop fn pp c rng sfuel max_chars (fuel + k) s =
        yieldOutputLoop fn pp c rng sfuel max_chars fuel s := by
  intro fuel
  induction fuel with
  | zero => intro s h; simp [yieldOutputLoop] at h
  | succ n ih =>
    intro s h
    rw [Nat.add_right_comm]
    unfold yieldOutputLoop at h ⊢
    by_cases h1 : s.size ≤ max_chars
    · simp only [h1, if_true] at h ⊢
      cases hy : yieldSentence fn pp c rng sfuel s.calls max_chars with
      | error e => rfl
      | ok r =>
        obtain ⟨sentence, calls⟩ := r
        rw [hy] at h
        simp only at h ⊢
        by_cases h2 : sentence.length + s.size ≥ max_chars
        · simp only [h2, if_true] at h ⊢
          by_cases h3 : s.tries + 1 < TRY_LIMIT
          · simp only [h3, if_true] at h ⊢
            exact ih _ h
          · simp only [h3, if_false]
        · simp only [h2, if_false] at h ⊢
          exact ih _ h
    · simp only [h1, if_false]

theorem yieldOutputLoop_timeout (fn : Str → Nat) (pp : WordKey → Str) (c : Corpus)
    (rng : Nat → Nat) (sfuel max_chars fuel fuel' : Nat) (s : OutputState)
    (h : yieldOutputLoop fn pp c rng sfuel max_chars fuel' s = .error .timeout)
    (hle : fuel ≤ fuel') :
    yieldOutputLoop fn pp c rng sfuel max_chars fuel s = .error .timeout := by
  obtain ⟨k, rfl⟩ := Nat.exists_eq_add_of_le hle
  by_contra hne
  rw [yieldOutputLoop_fuel_mono fn pp c rng sfuel max_chars k fuel s hne] at h
  exact hne h

theorem OutputRun_invariants (fn : Str → Nat) (pp : WordKey → Str) (c : Corpus)
    (rng : Nat → Nat) (max_chars t : Nat) (hm : max_chars < UINT_RANGE)
    (log : List (Str × Bool)) (s : OutputState)
    (h : OutputRun fn pp c rng max_chars t log s) :
    s.out = (log.filter (fun e => e.2)).map Prod.fst ∧
    s.size = accumulated s.out ∧ s.size ≤ max_chars ∧
    s.tries = (log.reverse.takeWhile (fun e => !e.2)).length ∧ s.tries < TRY_LIMIT := by
  induction h with
  | start => simp [accumulated, TRY_LIMIT]
  | accept log s sentence calls _ hs _ hacc ih =>
    obtain ⟨i1, i2, _, _, _⟩ := ih
    have hlt : s.size + (sentence.length + 1) < UINT_RANGE := by omega
    refine ⟨?_, ?_, ?_, ?_, ?_⟩
    · simp [List.filter_append, i1]
    · simp only [Nat.mod_eq_of_lt hlt, accumulated_append, ← i2]
      simp [accumulated]
    · simp only [Nat.mod_eq_of_lt hlt]; omega
    · simp [List.takeWhile]
    · simp [TRY_LIMIT]
  | reject log s sentence calls _ hs _ hrej htries ih =>
    obtain ⟨i1, i2, i3, i4, _⟩ := ih
    refine ⟨?_, i2, i3, ?_, htries⟩
    · simp [List.filter_append, i1]
    · simp [List.takeWhile, i4]

theorem OutputRun_simulates (fn : Str → Nat) (pp : WordKey → Str) (c : Corpus)
    (rng : Nat → Nat) (max_chars t : Nat) (log : List (Str × Bool)) (s : OutputState)
    (h : OutputRun fn pp c rng max_chars t log s) :
    ∃ sfuel, ∀ sf, sfuel ≤ sf → ∀ fuel,
      yieldOutputLoop fn pp c rng sf max_chars (fuel + log.length)
        { out := [], size := 0, tries := 0, calls := t } =
      yieldOutputLoop fn pp c rng sf max_chars fuel s := by
  induction h with
  | start => exact ⟨0, fun _ _ _ => rfl⟩
  | accept log s sentence calls _ hs hret hacc ih =>
    obtain ⟨f0, h0⟩ := ih
    obtain ⟨f1, h1⟩ := hret
    refine ⟨max f0 f1, fun sf hsf fuel => ?_⟩
    have hy := yieldSentence_fuel_mono fn pp c rng max_chars s.calls f1 sf _ h1
      (le_trans (le_max_right _ _) hsf)
    rw [List.length_append, List.length_singleton, ← Nat.add_assoc, Nat.add_right_comm,
      h0 sf (le_trans (le_max_left _ _) hsf) (fuel + 1)]
    conv_lhs => unfold yieldOutputLoop
    simp only [hs, if_true, hy, hacc, if_false]
  | reject log s sentence calls _ hs hret hrej htries ih =>
    obtain ⟨f0, h0⟩ := ih
    obtain ⟨f1, h1⟩ := hret
    refine ⟨max f0 f1, fun sf hsf fuel => ?_⟩
    have hy := yieldSentence_fuel_mono fn pp c rng max_chars s.calls f1 sf _ h1
      (le_trans (le_max_right _ _) hsf)
    rw [List.length_append, List.length_singleton, ← Nat.add_assoc, Nat.add_right_comm,
      h0 sf (le_trans (le_max_left _ _) hsf) (fuel + 1)]
    conv_lhs => unfold yieldOutputLoop
    simp only [hs, if_true, hy, hrej, htries]

theorem OutputRun_ends (fn : Str → Nat) (pp : WordKey → Str) (c : Corpus)
    (rng : Nat → Nat) (max_chars t : Nat) (hm : max_chars < UINT_RANGE)
    (hret : ∀ log s, OutputRun fn pp c rng max_chars t log s → s.size ≤ max_chars →
      ∃ r, sentenceReturns fn pp c rng max_chars s.calls r) :
    ∀ (M : Nat) (log : List (Str × Bool)) (s : OutputState),
      OutputRun fn pp c rng max_chars t log s →
      TRY_LIMIT * (max_chars - s.size) + (TRY_LIMIT - s.tries) ≤ M →
      ∃ log' s' sentence calls, OutputRun fn pp c rng max_chars t log' s' ∧
        log'.length + 1 ≤ log.length + M ∧
        sentenceReturns fn pp c rng max_chars s'.calls (sentence, calls) ∧
        sentence.length + s'.size ≥ max_chars ∧ s'.tries + 1 = TRY_LIMIT := by
  intro M
  induction M with
  | zero =>
    intro log s h hM
    have := (OutputRun_invariants fn pp c rng max_chars t hm log s h).2.2.2.2
    omega
  | succ M ih =>
    intro log s h hM
    obtain ⟨_, _, hsize, _, htries⟩ := OutputRun_invariants fn pp c rng max_chars t hm log s h
    obtain ⟨⟨sentence, calls⟩, hr⟩ := hret log s h hsize
    by_cases hrej : sentence.length + s.size ≥ max_chars
    · by_cases hlim : s.tries + 1 < TRY_LIMIT
      · have hnext := OutputRun.reject log s sentence calls h hsize hr hrej hlim
        obtain ⟨log', s', sen', calls', hrun, hlen, hfin⟩ := ih _ _ hnext (by
          simp only [TRY_LIMIT] at hM htries hlim ⊢
          omega)
        refine ⟨log', s', sen', calls', hrun, ?_, hfin⟩
        simp only [List.length_append, List.length_singleton] at hlen
        omega
      · exact ⟨log, s, sentence, calls, h, by omega, hr, hrej, by omega⟩
    · have hnext := OutputRun.accept log s sentence calls h hsize hr hrej
      have hlt : s.size + (sentence.length + 1) < UINT_RANGE := by omega
      obtain ⟨log', s', sen', calls', hrun, hlen, hfin⟩ := ih _ _ hnext (by
        simp only [Nat.mod_eq_of_lt hlt, TRY_LIMIT] at hM htries ⊢
        omega)
      refine ⟨log', s', sen', calls', hrun, ?_, hfin⟩
      simp only [List.length_append, List.length_singleton] at hlen
      omega

/-! ## The claims -/

/-- C1: window extraction. With `p = [BEGIN, BEGIN, w_1, ..., w_k]` the padded
words of the sentence, and the key `K` compared element-wise with the windows
of `p` (a window whose hash equals that of `K` is `K`), `addSentence` stores
exactly `k` more transitions, and the continuation list of `K` after the call
is its list before the call followed by `p[i+2]` for every `i` in `0..k-1`
with `[p[i], p[i+1]] = K`, in increasing order of `i`, duplicates kept. -/
theorem addSentence_windows (fn : Str → Nat) (pp : WordKey → Str) (self : Corpus)
    (sentence : Str) (K : WordKey) (p : List Str)
    (hp : p = BEGIN_STRING :: BEGIN_STRING :: parse sentence)
    (hK : ∀ i, i < (parse sentence).length →
      key_equal fn pp [p.getD i [], p.getD (i + 1) []] K = true →
        [p.getD i [], p.getD (i + 1) []] = K) :
    stored (addSentence fn pp self sentence) = stored self + (parse sentence).length ∧
    continuations fn pp (addSentence fn pp self sentence) K =
      continuations fn pp self K ++
        ((List.range (parse sentence).length).filter
          (fun i => decide ([p.getD i [], p.getD (i + 1) []] = K))).map
          (fun i => p.getD (i + 2) []) := by
  have hpad : padded sentence = p := by rw [hp]; rfl
  refine ⟨?_, ?_⟩
  · rw [addSentence_eq_foldl, stored_foldl, transitions_length]
  · rw [addSentence_eq_foldl, continuations_foldl]
    congr 1
    unfold transitions
    rw [hpad]
    have hlen : p.length - SIZE = (parse sentence).length := by rw [hp]; simp [SIZE]
    rw [hlen, List.filter_map, List.map_map]
    have hf : ∀ i ∈ List.range (parse sentence).length,
        ((fun t : WordKey × Str => key_equal fn pp t.1 K) ∘
          (fun i => (createFromContainer p i, p.getD (i + SIZE) []))) i =
        decide ([p.getD i [], p.getD (i + 1) []] = K) := by
      intro i hi
      have hi' : i < (parse sentence).length := List.mem_range.mp hi
      have hc : createFromContainer p i = [p.getD i [], p.getD (i + 1) []] :=
        createFromContainer_eq p i (by rw [hp]; simp; omega)
      simp only [Function.comp, hc]
      by_cases h : key_equal fn pp [p.getD i [], p.getD (i + 1) []] K = true
      · rw [h]; exact (decide_eq_true (hK i hi' h)).symm
      · have hne : [p.getD i [], p.getD (i + 1) []] ≠ K := by
          intro e; apply h; rw [e]; simp [key_equal]
        simp only [Bool.not_eq_true] at h
        rw [h]; exact (decide_eq_false hne).symm
    rw [List.filter_congr hf]
    apply List.map_congr_left
    intro i _
    simp [SIZE]

/-- C1 at the sentence `x y x y z` added to the corpus of `x y q`: five
transitions are stored and the key `[x, y]` gets `x` and `z` after its `q`. -/
theorem addSentence_windows_witness :
    stored (addSentence sampleHash sampleShow
      (addSentence sampleHash sampleShow [] "x y q".toList) "x y x y z".toList) = 3 + 5 ∧
    continuations sampleHash sampleShow
      (addSentence sampleHash sampleShow
        (addSentence sampleHash sampleShow [] "x y q".toList) "x y x y z".toList)
      ["x".toList, "y".toList] = ["q".toList, "x".toList, "z".toList] := by
  have h := addSentence_windows sampleHash sampleShow
    (addSentence sampleHash sampleShow [] "x y q".toList) "x y x y z".toList
    ["x".toList, "y".toList] _ rfl (by decide)
  exact ⟨h.1.trans (by decide), h.2.trans (by decide)⟩

/-- C2 fails as stated: the run `abcdefghij.` has 11 characters, more than
`MIN_THRESHOLD = 10`, and `addFromString` skips it (`index - prev` is 10),
although `addSentence` on it would store transitions. -/
theorem addFromString_skips_eleven :
    runs "abcdefghij.".toList = ["abcdefghij.".toList] ∧
    MIN_THRESHOLD < "abcdefghij.".toList.length ∧
    learned "abcdefghij.".toList = [] ∧
    addFromString sampleHash sampleShow [] "abcdefghij.".toList = [] ∧
    addSentence sampleHash sampleShow [] "abcdefghij.".toList ≠ [] := by
  decide

/-- C2, amended: the text is its terminator-delimited runs followed by an
unterminated rest, each run a terminator-free body and its closing terminator;
`addFromString` hands a run to `addSentence` exactly when the run without its
closing terminator is longer than `MIN_THRESHOLD` (the run has more than 11
characters), in the order of the text. For `Hi. This is a longer sentence here.`
exactly the second run is learned. -/
theorem addFromString_threshold (fn : Str → Nat) (pp : WordKey → Str) (self : Corpus)
    (str : Str) :
    (∃ tail : Str, (∀ x ∈ tail, x ∉ SENTENCE_PUNCT) ∧ str = (runs str).flatten ++ tail) ∧
    (∀ r ∈ runs str, ∃ (body : Str) (t : Char),
      r = body ++ [t] ∧ t ∈ SENTENCE_PUNCT ∧ ∀ x ∈ body, x ∉ SENTENCE_PUNCT) ∧
    learned str = (runs str).filter (fun r => decide (MIN_THRESHOLD < r.length - 1)) ∧
    addFromString fn pp self str = (learned str).foldl (addSentence fn pp) self ∧
    runs "Hi. This is a longer sentence here.".toList =
      ["Hi.".toList, " This is a longer sentence here.".toList] ∧
    learned "Hi. This is a longer sentence here.".toList =
      [" This is a longer sentence here.".toList] := by
  have hs := runsLoop_shape str [] (by simp)
  refine ⟨?_, hs.2, ?_, addFromString_eq_foldl fn pp self str, by decide, by decide⟩
  · obtain ⟨tail, h1, h2⟩ := hs.1
    exact ⟨tail, h1, by simpa using h2⟩
  · unfold learned runs
    rw [learnedLoop_eq_filter]
    apply List.filter_congr
    intro r _
    congr 1
    apply propext
    omega

/-- C3 at a failing input: trained on `Hi. This is a longer sentence here.`,
`yieldSentence (10)` returns the whole 31-character sentence, longer than
`max_chars` plus its final word. -/
theorem yieldSentence_exceeds_bound :
    yieldSentence sampleHash sampleShow
      (MarkovCorpus sampleHash sampleShow "Hi. This is a longer sentence here.".toList)
      (fun _ => 0) 40 0 10 = .ok ("This is a longer sentence here.".toList, 21) ∧
    10 + "here.".toList.length < "This is a longer sentence here.".toList.length := by
  refine ⟨?_, by decide⟩
  rfl

/-- C4 at its failing input: trained on `a a a a a a.` and with a random source
that always returns index 0, the loop of `yieldSentence` is still running
after any number of passes, for every `max_chars`. -/
theorem yieldSentence_never_returns (fuel t max_chars : Nat) :
    yieldSentence sampleHash sampleShow (MarkovCorpus sampleHash sampleShow cycleText)
      (fun _ => 0) fuel t max_chars = .error .timeout := by
  unfold yieldSentence
  rw [cycle_loop max_chars fuel (sentenceStart t) rfl (by simp [sentenceStart, createFromContainer, SIZE])]

/-- C6: idempotent-additive training. With `p = [BEGIN, BEGIN, w_1, ..., w_k]`
the padded words of `s`: after one `addSentence (s)` on the empty corpus the
list `L` of a key `K` is the words `p[i+2]` of the windows whose key compares
equal to `K`, in order, and `k` transitions are stored; after the second call
the list of `K` is `L ++ L`, every word occurs in it exactly twice as often
as in `L`, and `2 * k` transitions are stored. When `K` is the key of window
`i`, is compared element-wise with the keys of the windows, and the transition
from `K` to `p[i+2]` occurs once in `s`, the word `p[i+2]` is stored exactly
twice in the list of `K`. -/
theorem addSentence_twice (fn : Str → Nat) (pp : WordKey → Str) (s : Str) (K : WordKey)
    (p : List Str) (hp : p = BEGIN_STRING :: BEGIN_STRING :: parse s) :
    continuations fn pp (addSentence fn pp [] s) K =
      ((List.range (parse s).length).filter
        (fun i => key_equal fn pp [p.getD i [], p.getD (i + 1) []] K)).map
        (fun i => p.getD (i + 2) []) ∧
    continuations fn pp (addSentence fn pp (addSentence fn pp [] s) s) K =
      continuations fn pp (addSentence fn pp [] s) K ++
        continuations fn pp (addSentence fn pp [] s) K ∧
    (∀ w : Str, (continuations fn pp (addSentence fn pp (addSentence fn pp [] s) s) K).count w =
      2 * (continuations fn pp (addSentence fn pp [] s) K).count w) ∧
    stored (addSentence fn pp [] s) = (parse s).length ∧
    stored (addSentence fn pp (addSentence fn pp [] s) s) = 2 * (parse s).length ∧
    (∀ i, i < (parse s).length → K = [p.getD i [], p.getD (i + 1) []] →
      (∀ j, j < (parse s).length →
        key_equal fn pp [p.getD j [], p.getD (j + 1) []] K = true →
          [p.getD j [], p.getD (j + 1) []] = K) →
      (∀ j, j < (parse s).length → [p.getD j [], p.getD (j + 1) []] = K →
        p.getD (j + 2) [] = p.getD (i + 2) [] → j = i) →
      (continuations fn pp (addSentence fn pp (addSentence fn pp [] s) s) K).count
        (p.getD (i + 2) []) = 2) := by
  have h0 : continuations fn pp (addSentence fn pp [] s) K =
      ((transitions s).filter (fun t => key_equal fn pp t.1 K)).map Prod.snd := by
    rw [addSentence_eq_foldl, continuations_foldl]; simp [continuations, find]
  have h1 : continuations fn pp (addSentence fn pp [] s) K =
      ((List.range (parse s).length).filter
        (fun i => key_equal fn pp [p.getD i [], p.getD (i + 1) []] K)).map
        (fun i => p.getD (i + 2) []) := by
    rw [h0, transitions_eq, ← hp, List.filter_map, List.map_map]
    have hf : ∀ i ∈ List.range (parse s).length,
        ((fun t : WordKey × Str => key_equal fn pp t.1 K) ∘
          (fun i => (createFromContainer p i, p.getD (i + 2) []))) i =
        key_equal fn pp [p.getD i [], p.getD (i + 1) []] K := by
      intro i hi
      have hi' : i < (parse s).length := List.mem_range.mp hi
      simp only [Function.comp, createFromContainer_eq p i (by rw [hp]; simp; omega)]
    rw [List.filter_congr hf]
    rfl
  have h2 : continuations fn pp (addSentence fn pp (addSentence fn pp [] s) s) K =
      continuations fn pp (addSentence fn pp [] s) K ++
        continuations fn pp (addSentence fn pp [] s) K := by
    rw [addSentence_eq_foldl fn pp (addSentence fn pp [] s), continuations_foldl, ← h0]
  have h3 : ∀ w : Str,
      (continuations fn pp (addSentence fn pp (addSentence fn pp [] s) s) K).count w =
        2 * (continuations fn pp (addSentence fn pp [] s) K).count w := by
    intro w
    rw [h2, List.count_append]; omega
  have h4 : stored (addSentence fn pp [] s) = (parse s).length := by
    rw [addSentence_eq_foldl, stored_foldl, transitions_length]; simp [stored]
  refine ⟨h1, h2, h3, h4, ?_, ?_⟩
  · rw [addSentence_eq_foldl fn pp (addSentence fn pp [] s), stored_foldl, h4,
      transitions_length]
    omega
  · intro i hi hK hcmp honce
    rw [h3, h1]
    have hcount : (((List.range (parse s).length).filter
        (fun i => key_equal fn pp [p.getD i [], p.getD (i + 1) []] K)).map
        (fun i => p.getD (i + 2) [])).count (p.getD (i + 2) []) =
        (List.range (parse s).length).count i := by
      rw [List.count, List.countP_map, List.countP_filter, List.count]
      apply List.countP_congr
      intro j hj
      have hj' : j < (parse s).length := List.mem_range.mp hj
      simp only [Function.comp, Bool.and_eq_true, beq_iff_eq]
      constructor
      · rintro ⟨hw, hk⟩
        exact honce j hj' (hcmp j hj' hk) hw
      · intro e
        subst e
        exact ⟨rfl, by rw [hK]; simp [key_equal]⟩
    rw [hcount, List.count_eq_one_of_mem (List.nodup_range _) (List.mem_range.mpr hi)]

/-- C6 on the sentence `x y x y z` and the key `[x, y]`: one call stores its
five transitions and gives the key the list `[x, z]`, two calls the list
`[x, z, x, z]`, in which the word `z` of window 4 occurs twice. -/
theorem addSentence_twice_witness :
    continuations sampleHash sampleShow (addSentence sampleHash sampleShow [] "x y x y z".toList)
      ["x".toList, "y".toList] = ["x".toList, "z".toList] ∧
    continuations sampleHash sampleShow
      (addSentence sampleHash sampleShow (addSentence sampleHash sampleShow [] "x y x y z".toList)
        "x y x y z".toList)
      ["x".toList, "y".toList] = ["x".toList, "z".toList, "x".toList, "z".toList] ∧
    stored (addSentence sampleHash sampleShow [] "x y x y z".toList) = 5 ∧
    stored (addSentence sampleHash sampleShow
      (addSentence sampleHash sampleShow [] "x y x y z".toList) "x y x y z".toList) = 10 ∧
    (continuations sampleHash sampleShow
      (addSentence sampleHash sampleShow (addSentence sampleHash sampleShow [] "x y x y z".toList)
        "x y x y z".toList)
      ["x".toList, "y".toList]).count "z".toList = 2 := by
  have h := addSentence_twice sampleHash sampleShow "x y x y z".toList
    ["x".toList, "y".toList] _ rfl
  obtain ⟨h1, h2, _, h4, h5, h6⟩ := h
  refine ⟨h1.trans (by decide), ?_, h4.trans (by decide), h5.trans (by decide), ?_⟩
  · rw [h2, h1]; decide
  · exact h6 4 (by decide) (by decide) (by decide) (by decide)

/-- C7 fails as stated: whatever the hash, the continuation list of
`["The", "cat"]` is not `["sat", "ran"]`, since the stored words keep their
terminator; with the sample hash it is `["sat.", "ran."]`, and with the length
of the rendering as hash, where `["The", "dog"]` compares equal to
`["The", "cat"]`, it is `["sat.", "ran.", "sat."]`. -/
theorem corpus_The_cat_not_sat_ran :
    continuations sampleHash sampleShow
      (MarkovCorpus sampleHash sampleShow "The cat sat. The cat ran. The dog sat.".toList)
      ["The".toList, "cat".toList] = ["sat.".toList, "ran.".toList] ∧
    continuations (fun s => s.length) sampleShow
      (MarkovCorpus (fun s => s.length) sampleShow
        "The cat sat. The cat ran. The dog sat.".toList)
      ["The".toList, "cat".toList] = ["sat.".toList, "ran.".toList, "sat.".toList] ∧
    ∀ (fn : Str → Nat) (pp : WordKey → Str),
      continuations fn pp (MarkovCorpus fn pp "The cat sat. The cat ran. The dog sat.".toList)
        ["The".toList, "cat".toList] ≠ ["sat".toList, "ran".toList] := by
  refine ⟨by decide, by decide, ?_⟩
  intro fn pp h
  unfold MarkovCorpus at h
  rw [continuations_addFromString] at h
  have hm : "sat".toList ∈ List.map Prod.snd
      ((learned "The cat sat. The cat ran. The dog sat.".toList).flatMap transitions) := by
    have : "sat".toList ∈ ["sat".toList, "ran".toList] := by simp
    rw [← h] at this
    simp only [continuations, find, Option.getD_none, List.nil_append] at this
    exact List.Sublist.subset (List.Sublist.map _ (List.filter_sublist _)) this
  revert hm
  decide

/-- C7, amended: for the training text `The cat sat. The cat ran. The dog sat.`
with `N = 2`, when the key `["The", "cat"]` is compared element-wise with the
other keys of the text (its hash differs from theirs), its continuation list
is exactly `["sat.", "ran."]`. -/
theorem corpus_The_cat (fn : Str → Nat) (pp : WordKey → Str)
    (h : ∀ k ∈ [[BEGIN_STRING, BEGIN_STRING], [BEGIN_STRING, "The".toList],
        ["The".toList, "dog".toList]],
      key_equal fn pp k ["The".toList, "cat".toList] = false) :
    continuations fn pp (MarkovCorpus fn pp "The cat sat. The cat ran. The dog sat.".toList)
      ["The".toList, "cat".toList] = ["sat.".toList, "ran.".toList] := by
  have ht : (learned "The cat sat. The cat ran. The dog sat.".toList).flatMap transitions =
      [([BEGIN_STRING, BEGIN_STRING], "The".toList), ([BEGIN_STRING, "The".toList], "cat".toList),
       (["The".toList, "cat".toList], "sat.".toList),
       ([BEGIN_STRING, BEGIN_STRING], "The".toList), ([BEGIN_STRING, "The".toList], "cat".toList),
       (["The".toList, "cat".toList], "ran.".toList),
       ([BEGIN_STRING, BEGIN_STRING], "The".toList), ([BEGIN_STRING, "The".toList], "dog".toList),
       (["The".toList, "dog".toList], "sat.".toList)] := by decide
  have h1 := h [BEGIN_STRING, BEGIN_STRING] (by simp)
  have h2 := h [BEGIN_STRING, "The".toList] (by simp)
  have h3 := h ["The".toList, "dog".toList] (by simp)
  have h4 : key_equal fn pp ["The".toList, "cat".toList] ["The".toList, "cat".toList] = true := by
    simp [key_equal]
  unfold MarkovCorpus
  rw [continuations_addFromString, ht]
  simp only [List.filter_cons, List.filter_nil, h1, h2, h3, h4, continuations, find]
  decide

/-- C7 amended, at the sample hash. -/
theorem corpus_The_cat_witness :
    continuations sampleHash sampleShow
      (MarkovCorpus sampleHash sampleShow "The cat sat. The cat ran. The dog sat.".toList)
      ["The".toList, "cat".toList] = ["sat.".toList, "ran.".toList] :=
  corpus_The_cat sampleHash sampleShow (by decide)

/-- C8 at its failing inputs: on the empty corpus, `yieldOutput` accepts the
empty sentence `max_chars` times and returns `max_chars - 1` spaces, which is
the empty string only for `max_chars ≤ 1`. -/
theorem yieldOutput_empty_corpus (fn : Str → Nat) (pp : WordKey → Str) (rng : Nat → Nat)
    (sfuel fuel t max_chars : Nat) (hs : 0 < sfuel) (hf : max_chars + TRY_LIMIT ≤ fuel)
    (hm : max_chars < UINT_RANGE) :
    yieldOutput fn pp [] rng sfuel fuel t max_chars =
      .ok (List.replicate (max_chars - 1) ' ') := by
  obtain ⟨sfuel, rfl⟩ : ∃ f, sfuel = f + 1 := ⟨sfuel - 1, by omega⟩
  unfold yieldOutput
  have h := yieldOutputLoop_empty fn pp rng sfuel max_chars t hm max_chars fuel 0 (by omega) hf
  simp only [List.replicate_zero] at h
  rw [h]
  simp only [print_replicate_nil]

/-- C8 at the default budget: the empty corpus gives 144 spaces. -/
theorem yieldOutput_empty_corpus_default :
    yieldOutput sampleHash sampleShow (MarkovCorpus sampleHash sampleShow []) (fun _ => 0)
      1 150 0 MAX_CHAR_LIMIT = .ok (List.replicate 144 ' ') :=
  yieldOutput_empty_corpus sampleHash sampleShow (fun _ => 0) 1 150 0 MAX_CHAR_LIMIT
    (by decide) (by decide) (by decide)

/-- C9 fails as stated: with a constant string hash two different keys compare
equal, and under every string hash with 64-bit values some two different keys
compare equal. -/
theorem key_equal_not_structural :
    (key_equal (fun _ => 0) sampleShow [['a'], ['b']] [['c'], ['d']] = true ∧
      ([['a'], ['b']] : WordKey) ≠ [['c'], ['d']]) ∧
    (∀ (fn : Str → Nat) (pp : WordKey → Str), (∀ s, fn s < 2 ^ 64) →
      ∃ a b : WordKey, a ≠ b ∧ key_equal fn pp a b = true) := by
  refine ⟨⟨by decide, by decide⟩, ?_⟩
  intro fn pp hfn
  obtain ⟨a, b, hab, h⟩ := Finite.exists_ne_map_eq_of_infinite
    (fun k : WordKey => (⟨fn (pp k), hfn (pp k)⟩ : Fin (2 ^ 64)))
  refine ⟨a, b, hab, ?_⟩
  have := congrArg Fin.val h
  simpa [key_equal, key_hash] using this

/-- C9, amended: `key_equal` holds exactly when the hashes of the two keys'
renderings agree. So equal keys compare equal, and when the hash of the
rendering separates the two keys, `key_equal` is equality of the word
sequences. -/
theorem key_equal_spec (fn : Str → Nat) (pp : WordKey → Str) (a b : WordKey) :
    (key_equal fn pp a b = true ↔ fn (pp a) = fn (pp b)) ∧
    (a = b → key_equal fn pp a b = true) ∧
    ((fn (pp a) = fn (pp b) → a = b) → (key_equal fn pp a b = true ↔ a = b)) := by
  have h : key_equal fn pp a b = true ↔ fn (pp a) = fn (pp b) := by
    simp [key_equal, key_hash]
  refine ⟨h, ?_, ?_⟩
  · intro e; rw [h, e]
  · intro hinj
    constructor
    · intro e; exact hinj (h.mp e)
    · intro e; rw [h, e]

/-- C10 fails as stated: trained on `x [B] y is long.`, a reachable corpus,
`yieldSentence` returns `x [B] y is long.`, which contains the characters of
the BEGIN token ` [B] `: the learned word `[B]` between two separators. -/
theorem yieldSentence_shows_begin :
    Reachable sampleHash sampleShow
      (MarkovCorpus sampleHash sampleShow "x [B] y is long.".toList) ∧
    yieldSentence sampleHash sampleShow
      (MarkovCorpus sampleHash sampleShow "x [B] y is long.".toList)
      (fun _ => 0) 40 0 MAX_CHAR_LIMIT =
        .ok ("x".toList ++ BEGIN_STRING ++ "y is long.".toList, 5) ∧
    BEGIN_STRING <:+: "x".toList ++ BEGIN_STRING ++ "y is long.".toList :=
  ⟨Reachable.addFromString [] _ Reachable.empty, rfl, ⟨"x".toList, "y is long.".toList, rfl⟩⟩

/-- C10, amended: for every reachable corpus, every `max_chars` and every
sequence of draws, the string `yieldSentence` returns is the appended words
(the word list without its two seed words) joined by exactly one space; every
such word is non-empty, has no space and is not the BEGIN token; the string
has no leading space, no trailing space and no two adjacent spaces. -/
theorem yieldSentence_format (fn : Str → Nat) (pp : WordKey → Str) (c : Corpus)
    (rng : Nat → Nat) (fuel t max_chars : Nat) (str : Str) (t' : Nat)
    (hc : Reachable fn pp c)
    (h : yieldSentence fn pp c rng fuel t max_chars = .ok (str, t')) :
    ∃ (s' : SentenceState) (ws : List Str),
      yieldSentenceLoop fn pp c rng max_chars fuel (sentenceStart t) = .ok s' ∧
      s'.out = BEGIN_STRING :: BEGIN_STRING :: ws ∧
      str = SPACE.intercalate ws ∧
      (∀ w ∈ ws, w ≠ [] ∧ ' ' ∉ w ∧ w ≠ BEGIN_STRING) ∧
      str.head? ≠ some ' ' ∧ str.getLast? ≠ some ' ' ∧
      str.Chain' (fun a b => ¬ (a = ' ' ∧ b = ' ')) := by
  unfold yieldSentence at h
  cases hl : yieldSentenceLoop fn pp c rng max_chars fuel (sentenceStart t) with
  | error e => rw [hl] at h; simp at h
  | ok s' =>
    rw [hl] at h
    simp only [Except.ok.injEq, Prod.mk.injEq] at h
    obtain ⟨ws, hout, hws⟩ := yieldSentenceLoop_words fn pp c rng max_chars fuel t s' hl
    have hok := reachable_corpusOk fn pp c hc
    have hwords : ∀ w ∈ ws, w ≠ [] ∧ ' ' ∉ w := by
      intro w hw
      obtain ⟨_, k, l, hkl, hwl⟩ := hws w hw
      have := (hok (k, l) hkl).2 w hwl
      exact ⟨this.1, wordOk_no_space w this⟩
    have hstr : str = SPACE.intercalate ws := by
      rw [← h.1, hout, ← print_eq_intercalate]; rfl
    obtain ⟨_, f1, f2, f3⟩ := intercalate_format ws hwords
    refine ⟨s', ws, rfl, hout, hstr, ?_, ?_, ?_, ?_⟩
    · intro w hw
      refine ⟨(hwords w hw).1, (hwords w hw).2, ?_⟩
      intro e
      apply (hwords w hw).2
      rw [e]; decide
    · rw [hstr]; exact f1
    · rw [hstr]; exact f2
    · rw [hstr]; exact f3

/-- C10 amended, on the corpus of `The cat sat. The cat ran. The dog sat.`:
the sentence returned for draws that are all 0 is words joined by one space. -/
theorem yieldSentence_format_witness :
    ∃ (s' : SentenceState) (ws : List Str),
      yieldSentenceLoop sampleHash sampleShow
        (MarkovCorpus sampleHash sampleShow "The cat sat. The cat ran. The dog sat.".toList)
        (fun _ => 0) MAX_CHAR_LIMIT 40 (sentenceStart 0) = .ok s' ∧
      s'.out = BEGIN_STRING :: BEGIN_STRING :: ws ∧
      "The cat sat.".toList = SPACE.intercalate ws ∧
      (∀ w ∈ ws, w ≠ [] ∧ ' ' ∉ w ∧ w ≠ BEGIN_STRING) ∧
      "The cat sat.".toList.head? ≠ some ' ' ∧ "The cat sat.".toList.getLast? ≠ some ' ' ∧
      "The cat sat.".toList.Chain' (fun a b => ¬ (a = ' ' ∧ b = ' ')) :=
  yieldSentence_format sampleHash sampleShow
    (MarkovCorpus sampleHash sampleShow "The cat sat. The cat ran. The dog sat.".toList)
    (fun _ => 0) 40 0 MAX_CHAR_LIMIT "The cat sat.".toList 3
    (Reachable.addFromString [] _ Reachable.empty) rfl

/-- C11: overall budget of `yieldOutput`. For every corpus, every `max_chars`
(a `uint`) and every sequence of draws, when `yieldOutput` returns, every
sentence it accepted had its length plus the size accumulated before it
strictly below `max_chars`, and the returned string has length at most
`max_chars`, strictly less when `max_chars > 0`. -/
theorem yieldOutput_budget (fn : Str → Nat) (pp : WordKey → Str) (c : Corpus)
    (rng : Nat → Nat) (sfuel fuel t max_chars : Nat) (str : Str)
    (hm : max_chars < UINT_RANGE)
    (h : yieldOutput fn pp c rng sfuel fuel t max_chars = .ok str) :
    ∃ s' : OutputState,
      yieldOutputLoop fn pp c rng sfuel max_chars fuel
        { out := [], size := 0, tries := 0, calls := t } = .ok s' ∧
      str = print s'.out SPACE ∧
      (∀ pre sent post, s'.out = pre ++ sent :: post →
        sent.length + accumulated pre < max_chars) ∧
      str.length ≤ max_chars ∧ (0 < max_chars → str.length < max_chars) := by
  unfold yieldOutput at h
  cases hl : yieldOutputLoop fn pp c rng sfuel max_chars fuel
      { out := [], size := 0, tries := 0, calls := t } with
  | error e => rw [hl] at h; simp at h
  | ok s' =>
    rw [hl] at h
    simp only [Except.ok.injEq] at h
    obtain ⟨h1, h2, h3⟩ := yieldOutputLoop_budget fn pp c rng sfuel max_chars fuel t hm s' hl
    have hlen : str.length = accumulated s'.out - 1 := by rw [← h, print_length]
    refine ⟨s', rfl, h.symm, h3, ?_, ?_⟩
    · omega
    · intro hpos; omega

/-- C11 on the corpus of `The cat sat. The cat ran. The dog sat.` with budget 30
and draws all 0: two sentences of 12 characters are accepted, 25 characters. -/
theorem yieldOutput_budget_witness :
    ∃ s' : OutputState,
      yieldOutputLoop sampleHash sampleShow
        (MarkovCorpus sampleHash sampleShow "The cat sat. The cat ran. The dog sat.".toList)
        (fun _ => 0) 40 30 30 { out := [], size := 0, tries := 0, calls := 0 } = .ok s' ∧
      "The cat sat. The cat sat.".toList = print s'.out SPACE ∧
      (∀ pre sent post, s'.out = pre ++ sent :: post →
        sent.length + accumulated pre < 30) ∧
      "The cat sat. The cat sat.".toList.length ≤ 30 ∧
      (0 < 30 → "The cat sat. The cat sat.".toList.length < 30) :=
  yieldOutput_budget sampleHash sampleShow
    (MarkovCorpus sampleHash sampleShow "The cat sat. The cat ran. The dog sat.".toList)
    (fun _ => 0) 40 30 0 30 "The cat sat. The cat sat.".toList (by decide) rfl

/-- C12 fails as stated. After `addSentence` on a sentence without a word the
corpus is still empty and `yieldSentence` returns the empty string. And with
the parity of the length of the rendering as string hash, every stored key of
`The cat sat. The cat ran. The dog sat.` compares equal to the all-BEGIN key,
whose list then holds every stored word: for the draws `1, 2` the sentence
returned is `cat sat.`, which does not start with `The`. -/
theorem yieldSentence_first_word_fails :
    (Reachable sampleHash sampleShow (addSentence sampleHash sampleShow [] " ".toList) ∧
      yieldSentence sampleHash sampleShow (addSentence sampleHash sampleShow [] " ".toList)
        (fun _ => 0) 40 0 MAX_CHAR_LIMIT = .ok ([], 0)) ∧
    continuations (fun s => s.length % 2) sampleShow
      (MarkovCorpus (fun s => s.length % 2) sampleShow
        "The cat sat. The cat ran. The dog sat.".toList)
      [BEGIN_STRING, BEGIN_STRING] =
        ["The".toList, "cat".toList, "sat.".toList, "The".toList, "cat".toList, "ran.".toList,
         "The".toList, "dog".toList, "sat.".toList] ∧
    yieldSentence (fun s => s.length % 2) sampleShow
      (MarkovCorpus (fun s => s.length % 2) sampleShow
        "The cat sat. The cat ran. The dog sat.".toList)
      (fun t => t + 1) 40 0 MAX_CHAR_LIMIT = .ok ("cat sat.".toList, 2) :=
  ⟨⟨Reachable.addSentence [] _ Reachable.empty, rfl⟩, by decide, rfl⟩

/-- C12, amended: sentence starts. Let the corpus be built by `addSentence`
from a list of sentences (every reachable corpus is), at least one of which
has a word. For every `max_chars` and every sequence of draws, every string
`yieldSentence` returns is non-empty and is words joined by spaces, the first
of which is an element of the continuation list of the all-BEGIN key. When
that key is compared element-wise with the keys of the sentences' windows,
this word is the first word of one of the sentences; for the sentences of the
training text `The cat sat. The cat ran. The dog sat.` it is `The`. -/
theorem yieldSentence_first_word (fn : Str → Nat) (pp : WordKey → Str) (c : Corpus)
    (sentences : List Str) (rng : Nat → Nat) (fuel t max_chars : Nat) (str : Str) (t' : Nat)
    (hc : c = sentences.foldl (addSentence fn pp) [])
    (hne : ∃ s ∈ sentences, parse s ≠ [])
    (h : yieldSentence fn pp c rng fuel t max_chars = .ok (str, t')) :
    Reachable fn pp c ∧ str ≠ [] ∧
    ∃ w ws, str = SPACE.intercalate (w :: ws) ∧
      w ∈ continuations fn pp c [BEGIN_STRING, BEGIN_STRING] ∧
      ((∀ s ∈ sentences, ∀ x ∈ transitions s,
          key_equal fn pp x.1 [BEGIN_STRING, BEGIN_STRING] = true →
            x.1 = [BEGIN_STRING, BEGIN_STRING]) →
        (∃ s ∈ sentences, (parse s).head? = some w) ∧
        (sentences = learned "The cat sat. The cat ran. The dog sat.".toList →
          w = "The".toList)) := by
  have hreach : Reachable fn pp c := (reachable_iff_foldl fn pp c).mpr ⟨sentences, hc⟩
  have hok := reachable_corpusOk fn pp c hreach
  have hcont : continuations fn pp c [BEGIN_STRING, BEGIN_STRING] =
      ((sentences.flatMap transitions).filter
        (fun x => key_equal fn pp x.1 [BEGIN_STRING, BEGIN_STRING])).map Prod.snd := by
    rw [hc, foldl_addSentence, continuations_foldl]
    simp [continuations, find]
  obtain ⟨s1, hs1, hp1⟩ := hne
  obtain ⟨w1, ws1, hw1⟩ := List.exists_cons_of_ne_nil hp1
  have hmem1 : w1 ∈ continuations fn pp c [BEGIN_STRING, BEGIN_STRING] := by
    rw [hcont]
    refine List.mem_map.mpr ⟨([BEGIN_STRING, BEGIN_STRING], w1), ?_, rfl⟩
    refine List.mem_filter.mpr ⟨List.mem_flatMap.mpr ⟨s1, hs1, transitions_first s1 w1 ws1 hw1⟩,
      by simp [key_equal]⟩
  cases hf : find fn pp c [BEGIN_STRING, BEGIN_STRING] with
  | none =>
    unfold continuations at hmem1
    rw [hf] at hmem1
    simp at hmem1
  | some l =>
    have hl : continuations fn pp c [BEGIN_STRING, BEGIN_STRING] = l := by
      unfold continuations; rw [hf]; rfl
    unfold yieldSentence at h
    cases hloop : yieldSentenceLoop fn pp c rng max_chars fuel (sentenceStart t) with
    | error e => rw [hloop] at h; simp at h
    | ok s' =>
      rw [hloop] at h
      simp only [Except.ok.injEq, Prod.mk.injEq] at h
      obtain ⟨w, ws, hout, hw⟩ :=
        yieldSentenceLoop_first fn pp c hok l hf rng max_chars fuel t s' hloop
      have hstr : str = SPACE.intercalate (w :: ws) := by
        rw [← h.1, hout, ← print_eq_intercalate]; rfl
      have hwok : wordOk w := (find_corpusOk fn pp c hok _ l hf).2 w hw
      refine ⟨hreach, ?_, w, ws, hstr, by rw [hl]; exact hw, ?_⟩
      · rw [hstr]
        cases ws with
        | nil => simpa [List.intercalate] using hwok.1
        | cons w' ws' => rw [intercalate_cons_cons]; simp [hwok.1]
      · intro hcmp
        have hsent : ∃ s ∈ sentences, (parse s).head? = some w := by
          rw [← hl, hcont] at hw
          obtain ⟨x, hx, hxw⟩ := List.mem_map.mp hw
          obtain ⟨hx1, hx2⟩ := List.mem_filter.mp hx
          obtain ⟨s, hs, hxs⟩ := List.mem_flatMap.mp hx1
          exact ⟨s, hs, by rw [← hxw]; exact transitions_begin s x hxs (hcmp s hs x hxs hx2)⟩
        refine ⟨hsent, ?_⟩
        intro hsen
        obtain ⟨s, hs, hhead⟩ := hsent
        rw [hsen] at hs
        have hall : ∀ s ∈ learned "The cat sat. The cat ran. The dog sat.".toList,
            (parse s).head? = some "The".toList := by decide
        rw [hall s hs] at hhead
        injection hhead with hhead
        exact hhead.symm

/-- C12 amended, on the corpus of `The cat sat. The cat ran. The dog sat.` with
the sample hash and the draws `1, 2, ...`: the sentence returned is
`The dog sat.`, and its first word, an element of the list of the all-BEGIN
key, is `The`. -/
theorem yieldSentence_first_word_witness :
    Reachable sampleHash sampleShow
      (MarkovCorpus sampleHash sampleShow "The cat sat. The cat ran. The dog sat.".toList) ∧
    ∃ w ws, "The dog sat.".toList = SPACE.intercalate (w :: ws) ∧
      w ∈ continuations sampleHash sampleShow
        (MarkovCorpus sampleHash sampleShow "The cat sat. The cat ran. The dog sat.".toList)
        [BEGIN_STRING, BEGIN_STRING] ∧
      w = "The".toList := by
  obtain ⟨h1, _, w, ws, h2, h3, h4⟩ := yieldSentence_first_word sampleHash sampleShow
    (MarkovCorpus sampleHash sampleShow "The cat sat. The cat ran. The dog sat.".toList)
    (learned "The cat sat. The cat ran. The dog sat.".toList) (fun t => t + 1) 40 0
    MAX_CHAR_LIMIT "The dog sat.".toList 3
    (addFromString_eq_foldl sampleHash sampleShow [] _)
    ⟨"The cat sat.".toList, by decide, by decide⟩ rfl
  exact ⟨h1, w, ws, h2, h3, (h4 (by decide)).2 rfl⟩

/-- C13: append-only training. For every corpus, text and key `K`, the
continuation list of `K` is a prefix of its continuation list after
`addSentence` and after `addFromString`, and a key that has an entry keeps
one: nothing stored is removed, changed, reordered or deduplicated. -/
theorem training_appends (fn : Str → Nat) (pp : WordKey → Str) (c : Corpus) (t : Str)
    (K : WordKey) :
    continuations fn pp c K <+: continuations fn pp (addSentence fn pp c t) K ∧
    continuations fn pp c K <+: continuations fn pp (addFromString fn pp c t) K ∧
    (find fn pp c K ≠ none → find fn pp (addSentence fn pp c t) K ≠ none) ∧
    (find fn pp c K ≠ none → find fn pp (addFromString fn pp c t) K ≠ none) := by
  refine ⟨?_, ?_, ?_, ?_⟩
  · rw [addSentence_eq_foldl, continuations_foldl]
    exact ⟨_, rfl⟩
  · rw [continuations_addFromString]
    exact ⟨_, rfl⟩
  · intro h
    rw [addSentence_eq_foldl]
    exact find_foldl_isSome fn pp K _ c h
  · intro h
    rw [addFromString_eq_foldl, foldl_addSentence]
    exact find_foldl_isSome fn pp K _ c h

/-- C14: BEGIN is key-only. In every corpus reachable from the empty corpus by
`addSentence` and `addFromString` calls, every stored word is a non-empty word
without whitespace, so the BEGIN token is in no entry and in no continuation list. -/
theorem begin_never_stored (fn : Str → Nat) (pp : WordKey → Str) (c : Corpus)
    (hc : Reachable fn pp c) :
    (∀ e ∈ c, BEGIN_STRING ∉ e.2 ∧ ∀ w ∈ e.2, w ≠ [] ∧ ∀ ch ∈ w, isspace ch = false) ∧
    ∀ K, BEGIN_STRING ∉ continuations fn pp c K := by
  have hok := reachable_corpusOk fn pp c hc
  have hentry : ∀ e ∈ c, BEGIN_STRING ∉ e.2 := by
    intro e he hb
    exact (wordOk_ne_sentinel _ ((hok e he).2 _ hb)).1 rfl
  refine ⟨fun e he => ⟨hentry e he, (hok e he).2⟩, ?_⟩
  intro K hb
  unfold continuations at hb
  cases hf : find fn pp c K with
  | none => rw [hf] at hb; simp at hb
  | some l =>
    rw [hf] at hb
    obtain ⟨k, hk⟩ := find_mem fn pp c K l hf
    exact hentry (k, l) hk hb

/-- C14 on the corpus of a text that contains the characters `[B]`. -/
theorem begin_never_stored_witness :
    (∀ e ∈ MarkovCorpus sampleHash sampleShow "x [B] y is long.".toList,
      BEGIN_STRING ∉ e.2 ∧ ∀ w ∈ e.2, w ≠ [] ∧ ∀ ch ∈ w, isspace ch = false) ∧
    ∀ K, BEGIN_STRING ∉ continuations sampleHash sampleShow
      (MarkovCorpus sampleHash sampleShow "x [B] y is long.".toList) K :=
  begin_never_stored sampleHash sampleShow _ (Reachable.addFromString [] _ Reachable.empty)

/-- C15: unterminated text is ignored. For every corpus and every `u` without
a terminator, `addFromString` on `u` leaves the corpus unchanged, and
`addFromString` on `t ++ u` gives the corpus `addFromString` on `t` gives, for
every `t`. -/
theorem addFromString_unterminated (fn : Str → Nat) (pp : WordKey → Str) (c : Corpus)
    (u : Str) (hu : ∀ ch ∈ u, ch ∉ SENTENCE_PUNCT) :
    addFromString fn pp c u = c ∧
    ∀ t : Str, addFromString fn pp c (t ++ u) = addFromString fn pp c t := by
  constructor
  · rw [addFromString_eq_foldl]
    unfold learned
    rw [learnedLoop_no_punct u hu]
    rfl
  · intro t
    rw [addFromString_eq_foldl, addFromString_eq_foldl]
    unfold learned
    rw [learnedLoop_append_no_punct u hu]

/-- C15 on the corpus of `The cat sat.`, with the text `The cat ran.` followed
by the unterminated ` and so on`. -/
theorem addFromString_unterminated_witness :
    addFromString sampleHash sampleShow
      (MarkovCorpus sampleHash sampleShow "The cat sat.".toList) " and so on".toList =
      MarkovCorpus sampleHash sampleShow "The cat sat.".toList ∧
    ∀ t : Str, addFromString sampleHash sampleShow
      (MarkovCorpus sampleHash sampleShow "The cat sat.".toList) (t ++ " and so on".toList) =
      addFromString sampleHash sampleShow
        (MarkovCorpus sampleHash sampleShow "The cat sat.".toList) t :=
  addFromString_unterminated sampleHash sampleShow _ " and so on".toList (by decide)

/-- C16 at its failing inputs: when the sampled word would bring the size to
`max_chars` or beyond and the `TRY_LIMIT` retries at this position are used up,
the pass appends the word, so that the size exceeds `max_chars`, resets `tries`
and stays in the loop. -/
theorem yieldSentenceStep_exhausted (fn : Str → Nat) (pp : WordKey → Str) (c : Corpus)
    (rng : Nat → Nat) (max_chars : Nat) (s : SentenceState) (l : WordList) (word : Str)
    (hf : find fn pp c (createFromContainer s.out s.offset) = some l)
    (hg : l.get? (rng s.calls % l.length) = some word) (he : word ≠ END_STRING)
    (hbig : max_chars ≤ word.length + s.size) (ht : s.tries = TRY_LIMIT) :
    max_chars < s.size + (word.length + 1) ∧
    yieldSentenceStep fn pp c rng max_chars s =
      .next { out := s.out ++ [word], offset := s.offset + 1,
              size := (s.size + (word.length + 1)) % UINT_RANGE,
              tries := 0, calls := s.calls + 1 } := by
  refine ⟨by omega, ?_⟩
  unfold yieldSentenceStep
  simp only [hf, hg, he, if_false, ht]
  have : ¬ (word.length + s.size ≥ max_chars ∧ TRY_LIMIT + 1 ≤ TRY_LIMIT) := by
    intro h; exact absurd h.2 (by decide)
  simp only [this, if_false]

/-- C16 on the corpus of `Hi. This is a longer sentence here.` with budget 10:
after `This is a` and five retries, `longer` is appended. -/
theorem yieldSentenceStep_exhausted_witness :
    10 < 10 + ("longer".toList.length + 1) ∧
    yieldSentenceStep sampleHash sampleShow
      (MarkovCorpus sampleHash sampleShow "Hi. This is a longer sentence here.".toList)
      (fun _ => 0) 10
      { out := [BEGIN_STRING, BEGIN_STRING, "This".toList, "is".toList, "a".toList],
        offset := 3, size := 10, tries := 5, calls := 8 } =
      .next { out := [BEGIN_STRING, BEGIN_STRING, "This".toList, "is".toList, "a".toList] ++
                ["longer".toList],
              offset := 3 + 1, size := (10 + ("longer".toList.length + 1)) % UINT_RANGE,
              tries := 0, calls := 8 + 1 } :=
  yieldSentenceStep_exhausted sampleHash sampleShow
    (MarkovCorpus sampleHash sampleShow "Hi. This is a longer sentence here.".toList)
    (fun _ => 0) 10
    { out := [BEGIN_STRING, BEGIN_STRING, "This".toList, "is".toList, "a".toList],
      offset := 3, size := 10, tries := 5, calls := 8 }
    ["longer".toList] "longer".toList (by decide) (by decide) (by decide) (by decide) rfl

/-- C17: bounded work in `yieldOutput`, provided every call of `yieldSentence`
that its loop makes returns (`hret`: whenever the loop is about to start a
pass, the call of that pass returns within some number of passes of its own).
For every corpus, random source and `max_chars` below `2 ^ 32` there is a run
of `log.length` passes after which the loop goes on, followed by one last pass
whose sentence is rejected with `tries + 1 = TRY_LIMIT`: `yieldOutput` makes
these `log.length + 1` passes (it returns the sentences appended so far for
every larger number of passes allowed, and runs out for every smaller one), one
call of `yieldSentence` each, and `log.length + 1` is at most
`TRY_LIMIT * (max_chars + 1)`. At every pass the output is the appended
sentences of the log, the accumulated size is the sum of their lengths plus one
each and is at most `max_chars`, `tries` is the number of rejected sentences at
the end of the log and is below `TRY_LIMIT`; an appended sentence makes the
accumulated size strictly larger. -/
theorem yieldOutput_bounded (fn : Str → Nat) (pp : WordKey → Str) (c : Corpus)
    (rng : Nat → Nat) (t max_chars : Nat) (hm : max_chars < UINT_RANGE)
    (hret : ∀ log s, OutputRun fn pp c rng max_chars t log s → s.size ≤ max_chars →
      ∃ r, sentenceReturns fn pp c rng max_chars s.calls r) :
    (∃ log s sentence calls sfuel,
      OutputRun fn pp c rng max_chars t log s ∧
      log.length + 1 ≤ TRY_LIMIT * (max_chars + 1) ∧
      yieldSentence fn pp c rng sfuel s.calls max_chars = .ok (sentence, calls) ∧
      sentence.length + s.size ≥ max_chars ∧ s.tries + 1 = TRY_LIMIT ∧
      (∀ sf fuel, sfuel ≤ sf → log.length + 1 ≤ fuel →
        yieldOutputLoop fn pp c rng sf max_chars fuel
          { out := [], size := 0, tries := 0, calls := t } =
          .ok { s with tries := TRY_LIMIT, calls := calls } ∧
        yieldOutput fn pp c rng sf fuel t max_chars = .ok (print s.out SPACE)) ∧
      (∀ sf fuel, sfuel ≤ sf → fuel ≤ log.length →
        yieldOutput fn pp c rng sf fuel t max_chars = .error .timeout)) ∧
    (∀ log s, OutputRun fn pp c rng max_chars t log s →
      s.out = (log.filter (fun e => e.2)).map Prod.fst ∧
      s.size = accumulated s.out ∧ s.size ≤ max_chars ∧
      s.tries = (log.reverse.takeWhile (fun e => !e.2)).length ∧ s.tries < TRY_LIMIT) ∧
    (∀ log s sentence s', OutputRun fn pp c rng max_chars t log s →
      OutputRun fn pp c rng max_chars t (log ++ [(sentence, true)]) s' →
      s'.out = s.out ++ [sentence] ∧ s'.size = s.size + (sentence.length + 1) ∧
      s.size < s'.size) := by
  refine ⟨?_, fun log s h => OutputRun_invariants fn pp c rng max_chars t hm log s h, ?_⟩
  · obtain ⟨log, s, sentence, calls, hrun, hlen, ⟨f1, h1⟩, hrej, htries⟩ :=
      OutputRun_ends fn pp c rng max_chars t hm hret (TRY_LIMIT * (max_chars + 1)) []
        _ OutputRun.start (by simp only [TRY_LIMIT]; omega)
    obtain ⟨f0, h0⟩ := OutputRun_simulates fn pp c rng max_chars t log s hrun
    obtain ⟨_, _, hsize, _, _⟩ := OutputRun_invariants fn pp c rng max_chars t hm log s hrun
    have hy : ∀ sf, max f0 f1 ≤ sf →
        yieldSentence fn pp c rng sf s.calls max_chars = .ok (sentence, calls) :=
      fun sf hsf => yieldSentence_fuel_mono fn pp c rng max_chars s.calls f1 sf _ h1
        (le_trans (le_max_right _ _) hsf)
    have hlast : ∀ sf fuel, max f0 f1 ≤ sf → log.length + 1 ≤ fuel →
        yieldOutputLoop fn pp c rng sf max_chars fuel
          { out := [], size := 0, tries := 0, calls := t } =
          .ok { s with tries := TRY_LIMIT, calls := calls } := by
      intro sf fuel hsf hfuel
      obtain ⟨k, rfl⟩ := Nat.exists_eq_add_of_le hfuel
      rw [Nat.add_comm (log.length + 1) k, Nat.add_comm log.length 1, ← Nat.add_assoc,
        h0 sf (le_trans (le_max_left _ _) hsf) (k + 1)]
      unfold yieldOutputLoop
      have hn : ¬ (s.tries + 1 < TRY_LIMIT) := by omega
      simp only [hsize, if_true, hy sf hsf, hrej, hn, if_false]
      rw [htries]
    have hout : ∀ sf fuel, max f0 f1 ≤ sf → fuel ≤ log.length →
        yieldOutputLoop fn pp c rng sf max_chars fuel
          { out := [], size := 0, tries := 0, calls := t } = .error .timeout := by
      intro sf fuel hsf hfuel
      refine yieldOutputLoop_timeout fn pp c rng sf max_chars fuel log.length _ ?_ hfuel
      have := h0 sf (le_trans (le_max_left _ _) hsf) 0
      rw [Nat.zero_add] at this
      rw [this]
      rfl
    refine ⟨log, s, sentence, calls, max f0 f1, hrun,
      by simp only [List.length_nil] at hlen; omega, hy _ le_rfl, hrej, htries,
      ?_, ?_⟩
    · intro sf fuel hsf hfuel
      refine ⟨hlast sf fuel hsf hfuel, ?_⟩
      unfold yieldOutput
      rw [hlast sf fuel hsf hfuel]
    · intro sf fuel hsf hfuel
      unfold yieldOutput
      rw [hout sf fuel hsf hfuel]
  · intro log s sentence s' h h'
    obtain ⟨i1, i2, _, _, _⟩ := OutputRun_invariants fn pp c rng max_chars t hm log s h
    obtain ⟨j1, j2, _, _, _⟩ := OutputRun_invariants fn pp c rng max_chars t hm _ s' h'
    have ho : s'.out = s.out ++ [sentence] := by
      rw [j1, i1]; simp [List.filter_append]
    have hs : s'.size = s.size + (sentence.length + 1) := by
      rw [j2, ho, accumulated_append, ← i2]; simp [accumulated]
    exact ⟨ho, hs, by omega⟩

/-- C17 on the corpus of `The cat sat. The cat ran. The dog sat.` with budget 30
and draws all 0: every call of `yieldSentence` returns `The cat sat.`, and
`yieldOutput` makes 7 passes, two that append the sentence and five that
reject it. -/
theorem yieldOutput_bounded_witness :
    ((∃ log s sentence calls sfuel,
      OutputRun sampleHash sampleShow
        (MarkovCorpus sampleHash sampleShow "The cat sat. The cat ran. The dog sat.".toList)
        (fun _ => 0) 30 0 log s ∧
      log.length + 1 ≤ TRY_LIMIT * (30 + 1) ∧
      yieldSentence sampleHash sampleShow
        (MarkovCorpus sampleHash sampleShow "The cat sat. The cat ran. The dog sat.".toList)
        (fun _ => 0) sfuel s.calls 30 = .ok (sentence, calls) ∧
      sentence.length + s.size ≥ 30 ∧ s.tries + 1 = TRY_LIMIT ∧
      (∀ sf fuel, sfuel ≤ sf → log.length + 1 ≤ fuel →
        yieldOutputLoop sampleHash sampleShow
          (MarkovCorpus sampleHash sampleShow "The cat sat. The cat ran. The dog sat.".toList)
          (fun _ => 0) sf 30 fuel { out := [], size := 0, tries := 0, calls := 0 } =
          .ok { s with tries := TRY_LIMIT, calls := calls } ∧
        yieldOutput sampleHash sampleShow
          (MarkovCorpus sampleHash sampleShow "The cat sat. The cat ran. The dog sat.".toList)
          (fun _ => 0) sf fuel 0 30 = .ok (print s.out SPACE)) ∧
      (∀ sf fuel, sfuel ≤ sf → fuel ≤ log.length →
        yieldOutput sampleHash sampleShow
          (MarkovCorpus sampleHash sampleShow "The cat sat. The cat ran. The dog sat.".toList)
          (fun _ => 0) sf fuel 0 30 = .error .timeout)) ∧
    (∀ log s, OutputRun sampleHash sampleShow
        (MarkovCorpus sampleHash sampleShow "The cat sat. The cat ran. The dog sat.".toList)
        (fun _ => 0) 30 0 log s →
      s.out = (log.filter (fun e => e.2)).map Prod.fst ∧
      s.size = accumulated s.out ∧ s.size ≤ 30 ∧
      s.tries = (log.reverse.takeWhile (fun e => !e.2)).length ∧ s.tries < TRY_LIMIT) ∧
    (∀ log s sentence s', OutputRun sampleHash sampleShow
        (MarkovCorpus sampleHash sampleShow "The cat sat. The cat ran. The dog sat.".toList)
        (fun _ => 0) 30 0 log s →
      OutputRun sampleHash sampleShow
        (MarkovCorpus sampleHash sampleShow "The cat sat. The cat ran. The dog sat.".toList)
        (fun _ => 0) 30 0 (log ++ [(sentence, true)]) s' →
      s'.out = s.out ++ [sentence] ∧ s'.size = s.size + (sentence.length + 1) ∧
      s.size < s'.size)) ∧
    yieldOutput sampleHash sampleShow
      (MarkovCorpus sampleHash sampleShow "The cat sat. The cat ran. The dog sat.".toList)
      (fun _ => 0) 40 7 0 30 = .ok "The cat sat. The cat sat.".toList ∧
    yieldOutput sampleHash sampleShow
      (MarkovCorpus sampleHash sampleShow "The cat sat. The cat ran. The dog sat.".toList)
      (fun _ => 0) 40 6 0 30 = .error .timeout :=
  ⟨yieldOutput_bounded sampleHash sampleShow
    (MarkovCorpus sampleHash sampleShow "The cat sat. The cat ran. The dog sat.".toList)
    (fun _ => 0) 0 30 (by decide)
    (fun _ s _ _ => ⟨("The cat sat.".toList, 3 + s.calls), 40,
      yieldSentence_const sampleHash sampleShow _ 0 30 40 s.calls _ 3 rfl⟩), rfl, rfl⟩

/-- C18: every generated transition was observed. For every corpus, `max_chars`
and sequence of draws: the loop of `yieldSentence` starts with
`offset + SIZE` equal to the length of the word list and every pass keeps it
so, which makes the lookup key the last `SIZE` words of the list; and when the
loop returns with the word list `p = [BEGIN, BEGIN, v_1, ..., v_m]`, every
`p[i+2]` with `i < m` is an element of the continuation list of the key
`[p[i], p[i+1]]`. -/
theorem yieldSentence_transitions_observed (fn : Str → Nat) (pp : WordKey → Str)
    (c : Corpus) (rng : Nat → Nat) (fuel t max_chars : Nat) (s' : SentenceState)
    (h : yieldSentenceLoop fn pp c rng max_chars fuel (sentenceStart t) = .ok s') :
    (sentenceStart t).offset + SIZE = (sentenceStart t).out.length ∧
    (∀ s s1 : SentenceState, s.offset + SIZE = s.out.length →
      yieldSentenceStep fn pp c rng max_chars s = .next s1 →
      s1.offset + SIZE = s1.out.length) ∧
    (∀ s : SentenceState, s.offset + SIZE = s.out.length →
      createFromContainer s.out s.offset = s.out.drop (s.out.length - SIZE)) ∧
    s'.offset + SIZE = s'.out.length ∧
    ∃ vs : List Str, s'.out = BEGIN_STRING :: BEGIN_STRING :: vs ∧
      ∀ i, i < vs.length →
        s'.out.getD (i + 2) [] ∈
          continuations fn pp c [s'.out.getD i [], s'.out.getD (i + 1) []] := by
  have hinv := yieldSentenceLoop_induct fn pp c rng max_chars
    (fun s => s.offset + SIZE = s.out.length ∧
      ∃ vs : List Str, s.out = BEGIN_STRING :: BEGIN_STRING :: vs ∧
        ∀ i, i < vs.length →
          s.out.getD (i + 2) [] ∈ continuations fn pp c (createFromContainer s.out i))
    ?_ ?_ fuel (sentenceStart t) s' ⟨rfl, [], rfl, by simp⟩ h
  · obtain ⟨h1, vs, h2, h3⟩ := hinv
    refine ⟨rfl, fun s s1 hs hn => yieldSentenceStep_offset fn pp c rng max_chars s s1 hs hn,
      fun s hs => createFromContainer_last s.out s.offset hs, h1, vs, h2, ?_⟩
    intro i hi
    have := h3 i hi
    rw [createFromContainer_eq s'.out i (by rw [h2]; simp; omega)] at this
    exact this
  · intro s s1 ⟨hoff, vs, hout, hall⟩ hstep
    have hoff1 := yieldSentenceStep_offset fn pp c rng max_chars s s1 hoff hstep
    obtain ⟨_, hcase⟩ := yieldSentenceStep_next fn pp c rng max_chars s s1 hstep
    rcases hcase with ⟨ho, _⟩ | ⟨l, word, hf, hm, _, ho, _⟩
    · exact ⟨hoff1, vs, by rw [ho, hout], by rw [ho]; exact hall⟩
    · have hlen : s.out.length = vs.length + 2 := by rw [hout]; simp
      have hoffv : s.offset = vs.length := by simp only [SIZE] at hoff; omega
      refine ⟨hoff1, vs ++ [word], by rw [ho, hout]; simp, ?_⟩
      intro i hi
      rw [ho, createFromContainer_append s.out word i (by simp at hi; omega)]
      simp only [List.length_append, List.length_singleton] at hi
      by_cases hlt : i < vs.length
      · have : (s.out ++ [word]).getD (i + 2) [] = s.out.getD (i + 2) [] := by
          simp only [List.getD_eq_getElem?_getD]
          rw [List.getElem?_append_left (by omega)]
        rw [this]
        exact hall i hlt
      · have hi' : i = vs.length := by omega
        have : (s.out ++ [word]).getD (i + 2) [] = word := by
          simp only [List.getD_eq_getElem?_getD]
          rw [List.getElem?_append_right (by omega)]
          simp [hi', hlen]
        rw [this, hi', ← hoffv]
        unfold continuations
        rw [hf]
        exact hm
  · intro s s1 ⟨hoff, vs, hout, hall⟩ hstep
    obtain ⟨ho, hoff'⟩ := yieldSentenceStep_stop fn pp c rng max_chars s s1 hstep
    exact ⟨by rw [ho, hoff']; exact hoff, vs, by rw [ho, hout], by rw [ho]; exact hall⟩

/-- C18 on the corpus of `The cat sat. The cat ran. The dog sat.`, draws `1, 2, ...`:
the loop returns `The dog sat.` and each of its words follows its key in the corpus. -/
theorem yieldSentence_transitions_observed_witness :
    (sentenceStart 0).offset + SIZE = (sentenceStart 0).out.length ∧
    (∀ s s1 : SentenceState, s.offset + SIZE = s.out.length →
      yieldSentenceStep sampleHash sampleShow
        (MarkovCorpus sampleHash sampleShow "The cat sat. The cat ran. The dog sat.".toList)
        (fun t => t + 1) MAX_CHAR_LIMIT s = .next s1 →
      s1.offset + SIZE = s1.out.length) ∧
    (∀ s : SentenceState, s.offset + SIZE = s.out.length →
      createFromContainer s.out s.offset = s.out.drop (s.out.length - SIZE)) ∧
    (3 : Nat) + SIZE =
      [BEGIN_STRING, BEGIN_STRING, "The".toList, "dog".toList, "sat.".toList].length ∧
    ∃ vs : List Str,
      [BEGIN_STRING, BEGIN_STRING, "The".toList, "dog".toList, "sat.".toList] =
        BEGIN_STRING :: BEGIN_STRING :: vs ∧
      ∀ i, i < vs.length →
        [BEGIN_STRING, BEGIN_STRING, "The".toList, "dog".toList, "sat.".toList].getD (i + 2) [] ∈
          continuations sampleHash sampleShow
            (MarkovCorpus sampleHash sampleShow "The cat sat. The cat ran. The dog sat.".toList)
            [[BEGIN_STRING, BEGIN_STRING, "The".toList, "dog".toList, "sat.".toList].getD i [],
             [BEGIN_STRING, BEGIN_STRING, "The".toList, "dog".toList, "sat.".toList].getD
               (i + 1) []] :=
  yieldSentence_transitions_observed sampleHash sampleShow
    (MarkovCorpus sampleHash sampleShow "The cat sat. The cat ran. The dog sat.".toList)
    (fun t => t + 1) 40 0 MAX_CHAR_LIMIT
    { out := [BEGIN_STRING, BEGIN_STRING, "The".toList, "dog".toList, "sat.".toList],
      offset := 3, size := 13, tries := 0, calls := 3 } rfl

/-- C19: sampling is always in range. In every corpus reachable from the empty
corpus by `addSentence` and `addFromString` calls, every key that has an
entry has a non-empty list, on which every draw below its size finds a word;
so no pass of the loop of `yieldSentence` fails, and the loop never ends on
`list.at` out of range. -/
theorem sampling_in_range (fn : Str → Nat) (pp : WordKey → Str) (c : Corpus)
    (hc : Reachable fn pp c) :
    (∀ K l, find fn pp c K = some l →
      1 ≤ l.length ∧ ∀ d, d < l.length → l.get? d ≠ none) ∧
    (∀ (rng : Nat → Nat) (max_chars : Nat) (s : SentenceState),
      yieldSentenceStep fn pp c rng max_chars s ≠ .fault) ∧
    ∀ (rng : Nat → Nat) (max_chars fuel : Nat) (s : SentenceState),
      yieldSentenceLoop fn pp c rng max_chars fuel s ≠ .error .out_of_range := by
  have hok := reachable_corpusOk fn pp c hc
  refine ⟨?_, ?_, ?_⟩
  · intro K l hf
    refine ⟨List.length_pos.mpr (find_corpusOk fn pp c hok K l hf).1, ?_⟩
    intro d hd
    rw [List.get?_eq_get hd]
    simp
  · intro rng max_chars s
    exact (yieldSentenceStep_corpusOk fn pp c hok rng max_chars s).1
  · intro rng max_chars fuel s
    exact yieldSentenceLoop_no_fault fn pp c hok rng max_chars fuel s

/-- C19 on the corpus of `The cat sat. The cat ran. The dog sat.`. -/
theorem sampling_in_range_witness :
    (∀ K l, find sampleHash sampleShow
        (MarkovCorpus sampleHash sampleShow "The cat sat. The cat ran. The dog sat.".toList)
        K = some l →
      1 ≤ l.length ∧ ∀ d, d < l.length → l.get? d ≠ none) ∧
    (∀ (rng : Nat → Nat) (max_chars : Nat) (s : SentenceState),
      yieldSentenceStep sampleHash sampleShow
        (MarkovCorpus sampleHash sampleShow "The cat sat. The cat ran. The dog sat.".toList)
        rng max_chars s ≠ .fault) ∧
    ∀ (rng : Nat → Nat) (max_chars fuel : Nat) (s : SentenceState),
      yieldSentenceLoop sampleHash sampleShow
        (MarkovCorpus sampleHash sampleShow "The cat sat. The cat ran. The dog sat.".toList)
        rng max_chars fuel s ≠ .error .out_of_range :=
  sampling_in_range sampleHash sampleShow _ (Reachable.addFromString [] _ Reachable.empty)

/-- C20: END is never stored. In every corpus reachable from the empty corpus
by `addSentence` and `addFromString` calls, every stored word is non-empty and
has no whitespace, so the END token is in no entry and in no continuation
list; a pass of the loop of `yieldSentence` leaves the loop only when its
lookup key has no entry, without a draw; and when `yieldSentence` returns, the
key formed by the last `SIZE` words of its word list has no entry. -/
theorem end_never_stored (fn : Str → Nat) (pp : WordKey → Str) (c : Corpus)
    (hc : Reachable fn pp c) :
    (∀ e ∈ c, END_STRING ∉ e.2 ∧ ∀ w ∈ e.2, w ≠ [] ∧ ∀ ch ∈ w, isspace ch = false) ∧
    (∀ K, END_STRING ∉ continuations fn pp c K) ∧
    (∀ (rng : Nat → Nat) (max_chars : Nat) (s s' : SentenceState),
      yieldSentenceStep fn pp c rng max_chars s = .stop s' →
      find fn pp c (createFromContainer s.out s.offset) = none ∧ s' = s) ∧
    ∀ (rng : Nat → Nat) (max_chars fuel t : Nat) (s' : SentenceState),
      yieldSentenceLoop fn pp c rng max_chars fuel (sentenceStart t) = .ok s' →
      find fn pp c (s'.out.drop (s'.out.length - SIZE)) = none := by
  have hok := reachable_corpusOk fn pp c hc
  have hentry : ∀ e ∈ c, END_STRING ∉ e.2 := by
    intro e he hb
    exact (wordOk_ne_sentinel _ ((hok e he).2 _ hb)).2 rfl
  refine ⟨fun e he => ⟨hentry e he, (hok e he).2⟩, ?_, ?_, ?_⟩
  · intro K hb
    unfold continuations at hb
    cases hf : find fn pp c K with
    | none => rw [hf] at hb; simp at hb
    | some l =>
      rw [hf] at hb
      obtain ⟨k, hk⟩ := find_mem fn pp c K l hf
      exact hentry (k, l) hk hb
  · intro rng max_chars s s' h
    exact (yieldSentenceStep_corpusOk fn pp c hok rng max_chars s).2 s' h
  · intro rng max_chars fuel t s' h
    obtain ⟨s0, hoff, hstop⟩ := yieldSentenceLoop_last fn pp c rng max_chars
      (fun s => s.offset + SIZE = s.out.length)
      (fun s s1 hs hn => yieldSentenceStep_offset fn pp c rng max_chars s s1 hs hn)
      fuel (sentenceStart t) s' rfl h
    obtain ⟨hnone, hs⟩ := (yieldSentenceStep_corpusOk fn pp c hok rng max_chars s0).2 s' hstop
    rw [hs, ← createFromContainer_last s0.out s0.offset hoff]
    exact hnone

/-- C20 on the corpus of `The cat sat. The cat ran. The dog sat.`. -/
theorem end_never_stored_witness :
    (∀ e ∈ MarkovCorpus sampleHash sampleShow "The cat sat. The cat ran. The dog sat.".toList,
      END_STRING ∉ e.2 ∧ ∀ w ∈ e.2, w ≠ [] ∧ ∀ ch ∈ w, isspace ch = false) ∧
    (∀ K, END_STRING ∉ continuations sampleHash sampleShow
      (MarkovCorpus sampleHash sampleShow "The cat sat. The cat ran. The dog sat.".toList) K) ∧
    (∀ (rng : Nat → Nat) (max_chars : Nat) (s s' : SentenceState),
      yieldSentenceStep sampleHash sampleShow
        (MarkovCorpus sampleHash sampleShow "The cat sat. The cat ran. The dog sat.".toList)
        rng max_chars s = .stop s' →
      find sampleHash sampleShow
        (MarkovCorpus sampleHash sampleShow "The cat sat. The cat ran. The dog sat.".toList)
        (createFromContainer s.out s.offset) = none ∧ s' = s) ∧
    ∀ (rng : Nat → Nat) (max_chars fuel t : Nat) (s' : SentenceState),
      yieldSentenceLoop sampleHash sampleShow
        (MarkovCorpus sampleHash sampleShow "The cat sat. The cat ran. The dog sat.".toList)
        rng max_chars fuel (sentenceStart t) = .ok s' →
      find sampleHash sampleShow
        (MarkovCorpus sampleHash sampleShow "The cat sat. The cat ran. The dog sat.".toList)
        (s'.out.drop (s'.out.length - SIZE)) = none :=
  end_never_stored sampleHash sampleShow _ (Reachable.addFromString [] _ Reachable.empty)

end Markov
